import Mathlib

/-!
# Verification of `secret_santa.py`

A shallow embedding of the secret-santa script: the bipartite candidate
graph builder `CreateBigraph`, the Hopcroft–Karp style maximum-cardinality
matching routine `BipartiteMatch` (Eppstein's algorithm), and the cycle
validator `MakeSureEverybodyHasGift`, together with proofs of the
functional properties the design document states about them.

Python dictionaries are modelled as association lists with unique keys,
iterated in list order (CPython's iteration order is a fixed but
implementation-defined function of the contents; every order-sensitive
statement below is either proved for all orders or about data whose order
the model fixes the same way throughout the pipeline).  Mutation is
modelled by explicit state passing; `KeyError`-free execution is
guaranteed by invariants proved alongside.  The identity tests `p1 is p2`
and `a is not root` in the source compare interned dictionary-key strings
that alias each other in CPython, so they are modelled as value equality.
The `pred[u] is unmatched` flag test compares against a shared mutable
list object; it is modelled by an `Option` value (`none` = the flag).
-/

set_option linter.unusedVariables false

namespace SecretSanta

/-- Participants are opaque identifiers; the script uses strings. -/
abbrev V := String

/-- A Python dict, modelled as an association list with unique keys. -/
abbrev Dict (β : Type) := List (V × β)

/-- The keys of a dict, in iteration order (`d.keys()`). -/
def dkeys {β : Type} (d : Dict β) : List V := d.map (·.1)

/-- The values of a dict, in iteration order (`d.values()`). -/
def dvalues {β : Type} (d : Dict β) : List β := d.map (·.2)

/-- Dict lookup, `d[x]` as an `Option` (`none` models a `KeyError`). -/
def dget? {β : Type} : Dict β → V → Option β
  | [], _ => none
  | (k, b) :: d, x => if x = k then some b else dget? d x

/-- Dict deletion `del d[x]` / `d.pop(x)`: removes the entries keyed `x`. -/
def derase {β : Type} : Dict β → V → Dict β
  | [], _ => []
  | (k, b) :: d, x => if k = x then derase d x else (k, b) :: derase d x

/-- Dict assignment `d[x] = b`: update in place, or append a new entry. -/
def dset {β : Type} : Dict β → V → β → Dict β
  | [], x, b => [(x, b)]
  | (k, c) :: d, x, b => if k = x then (k, b) :: d else (k, c) :: dset d x b

/-- `d.setdefault(x, []).append(u)` on a dict of lists. -/
def dappend : Dict (List V) → V → V → Dict (List V)
  | [], x, u => [(x, [u])]
  | (k, L) :: d, x, u =>
      if k = x then (k, L ++ [u]) :: d else (k, L) :: dappend d x u

@[simp] theorem dkeys_nil {β : Type} : dkeys ([] : Dict β) = [] := rfl

@[simp] theorem dkeys_cons {β : Type} (k : V) (b : β) (d : Dict β) :
    dkeys ((k, b) :: d) = k :: dkeys d := rfl

@[simp] theorem dvalues_nil {β : Type} : dvalues ([] : Dict β) = [] := rfl

@[simp] theorem dvalues_cons {β : Type} (k : V) (b : β) (d : Dict β) :
    dvalues ((k, b) :: d) = b :: dvalues d := rfl

@[simp] theorem dget?_nil {β : Type} (x : V) : dget? ([] : Dict β) x = none := rfl

theorem dget?_cons {β : Type} (k : V) (b : β) (d : Dict β) (x : V) :
    dget? ((k, b) :: d) x = if x = k then some b else dget? d x := rfl

theorem dget?_isSome_iff_mem_dkeys {β : Type} {d : Dict β} {x : V} :
    (dget? d x).isSome ↔ x ∈ dkeys d := by
  induction d with
  | nil => simp
  | cons p d ih =>
    obtain ⟨k, b⟩ := p
    by_cases h : x = k <;> simp [dget?_cons, h, ih]

theorem dget?_eq_none_iff {β : Type} {d : Dict β} {x : V} :
    dget? d x = none ↔ x ∉ dkeys d := by
  rw [← dget?_isSome_iff_mem_dkeys]
  cases dget? d x <;> simp

theorem mem_dkeys_of_dget? {β : Type} {d : Dict β} {x : V} {b : β}
    (h : dget? d x = some b) : x ∈ dkeys d := by
  rw [← dget?_isSome_iff_mem_dkeys, h]; rfl

theorem mem_of_dget? {β : Type} {d : Dict β} {x : V} {b : β}
    (h : dget? d x = some b) : (x, b) ∈ d := by
  induction d with
  | nil => simp at h
  | cons p d ih =>
    obtain ⟨k, c⟩ := p
    rw [dget?_cons] at h
    by_cases hx : x = k
    · simp [hx] at h; simp [hx, h]
    · simp [hx] at h; exact List.mem_cons_of_mem _ (ih h)

theorem dget?_of_mem {β : Type} {d : Dict β} {x : V} {b : β}
    (hnd : (dkeys d).Nodup) (h : (x, b) ∈ d) : dget? d x = some b := by
  induction d with
  | nil => simp at h
  | cons p d ih =>
    obtain ⟨k, c⟩ := p
    simp only [dkeys_cons, List.nodup_cons] at hnd
    rcases List.mem_cons.mp h with h1 | h1
    · cases h1; simp [dget?_cons]
    · have hxk : x ≠ k := by
        rintro rfl
        exact hnd.1 (List.mem_map.mpr ⟨(x, b), h1, rfl⟩)
      simp [dget?_cons, hxk, ih hnd.2 h1]

theorem dget?_mem_dvalues {β : Type} {d : Dict β} {x : V} {b : β}
    (h : dget? d x = some b) : b ∈ dvalues d :=
  List.mem_map.mpr ⟨(x, b), mem_of_dget? h, rfl⟩

theorem mem_derase {β : Type} {d : Dict β} {x : V} {p : V × β} :
    p ∈ derase d x ↔ p ∈ d ∧ p.1 ≠ x := by
  induction d with
  | nil => simp [derase]
  | cons q d ih =>
    obtain ⟨k, b⟩ := q
    by_cases h : k = x
    · subst h
      rw [show derase ((k, b) :: d) k = derase d k by simp [derase], ih]
      constructor
      · rintro ⟨h1, h2⟩; exact ⟨List.mem_cons_of_mem _ h1, h2⟩
      · rintro ⟨h1, h2⟩
        rcases List.mem_cons.mp h1 with rfl | h1
        · exact absurd rfl h2
        · exact ⟨h1, h2⟩
    · rw [show derase ((k, b) :: d) x = (k, b) :: derase d x by simp [derase, h]]
      simp only [List.mem_cons, ih]
      constructor
      · rintro (rfl | ⟨h1, h2⟩)
        · exact ⟨Or.inl rfl, h⟩
        · exact ⟨Or.inr h1, h2⟩
      · rintro ⟨rfl | h1, h2⟩
        · exact Or.inl rfl
        · exact Or.inr ⟨h1, h2⟩

theorem dget?_derase_self {β : Type} (d : Dict β) (x : V) :
    dget? (derase d x) x = none := by
  rw [dget?_eq_none_iff]
  intro hmem
  obtain ⟨p, hp, hp1⟩ := List.mem_map.mp hmem
  exact (mem_derase.mp hp).2 hp1

theorem dget?_derase_ne {β : Type} (d : Dict β) (x y : V) (h : y ≠ x) :
    dget? (derase d x) y = dget? d y := by
  induction d with
  | nil => simp [derase]
  | cons q d ih =>
    obtain ⟨k, b⟩ := q
    by_cases hk : k = x
    · subst hk
      have : y ≠ k := h
      simp [derase, dget?_cons, this, ih]
    · by_cases hy : y = k <;> simp [derase, hk, dget?_cons, hy, ih]

theorem mem_dkeys_derase {β : Type} {d : Dict β} {x y : V} :
    y ∈ dkeys (derase d x) ↔ y ∈ dkeys d ∧ y ≠ x := by
  simp only [dkeys, List.mem_map]
  constructor
  · rintro ⟨p, hp, rfl⟩
    have := mem_derase.mp hp
    exact ⟨⟨p, this.1, rfl⟩, this.2⟩
  · rintro ⟨⟨p, hp, rfl⟩, hne⟩
    exact ⟨p, mem_derase.mpr ⟨hp, hne⟩, rfl⟩

theorem dkeys_derase_sublist {β : Type} (d : Dict β) (x : V) :
    (dkeys (derase d x)).Sublist (dkeys d) := by
  induction d with
  | nil => simp [derase]
  | cons q d ih =>
    obtain ⟨k, b⟩ := q
    by_cases hk : k = x
    · simpa [derase, hk] using ih.cons k
    · simpa [derase, hk] using ih.cons₂ k

theorem nodup_dkeys_derase {β : Type} {d : Dict β} (x : V)
    (h : (dkeys d).Nodup) : (dkeys (derase d x)).Nodup :=
  (dkeys_derase_sublist d x).nodup h

theorem length_derase_le {β : Type} (d : Dict β) (x : V) :
    (derase d x).length ≤ d.length := by
  induction d with
  | nil => simp [derase]
  | cons q d ih =>
    obtain ⟨k, b⟩ := q
    by_cases hk : k = x <;> simp [derase, hk] <;> omega

theorem length_derase_lt {β : Type} {d : Dict β} {x : V}
    (h : x ∈ dkeys d) : (derase d x).length < d.length := by
  induction d with
  | nil => simp at h
  | cons q d ih =>
    obtain ⟨k, b⟩ := q
    by_cases hk : k = x
    · simp only [derase, if_pos hk, List.length_cons]
      exact Nat.lt_succ_of_le (length_derase_le d x)
    · simp only [dkeys_cons, List.mem_cons] at h
      rcases h with rfl | h
      · exact absurd rfl hk
      · simp only [derase, if_neg hk, List.length_cons]
        exact Nat.succ_lt_succ (ih h)

theorem dget?_dset_self {β : Type} (d : Dict β) (x : V) (b : β) :
    dget? (dset d x b) x = some b := by
  induction d with
  | nil => simp [dset, dget?_cons]
  | cons q d ih =>
    obtain ⟨k, c⟩ := q
    by_cases h : k = x
    · subst h; simp [dset, dget?_cons]
    · have hx : x ≠ k := fun hh => h hh.symm
      simp [dset, h, dget?_cons, hx, ih]

theorem dget?_dset_ne {β : Type} (d : Dict β) (x y : V) (b : β) (h : y ≠ x) :
    dget? (dset d x b) y = dget? d y := by
  induction d with
  | nil => simp [dset, dget?_cons, h]
  | cons q d ih =>
    obtain ⟨k, c⟩ := q
    by_cases hk : k = x
    · subst hk
      have : y ≠ k := h
      simp [dset, dget?_cons, this]
    · by_cases hy : y = k <;> simp [dset, hk, dget?_cons, hy, ih]

theorem mem_dkeys_dset {β : Type} {d : Dict β} {x y : V} {b : β} :
    y ∈ dkeys (dset d x b) ↔ y ∈ dkeys d ∨ y = x := by
  induction d with
  | nil => simp [dset]
  | cons q d ih =>
    obtain ⟨k, c⟩ := q
    by_cases hk : k = x
    · subst hk; simp [dset]; tauto
    · simp [dset, hk, ih, or_assoc]

theorem nodup_dkeys_dset {β : Type} {d : Dict β} {x : V} {b : β}
    (h : (dkeys d).Nodup) : (dkeys (dset d x b)).Nodup := by
  induction d with
  | nil => simp [dset]
  | cons q d ih =>
    obtain ⟨k, c⟩ := q
    simp only [dkeys_cons, List.nodup_cons] at h
    by_cases hk : k = x
    · subst hk; simpa [dset] using h
    · simp only [dset, if_neg hk, dkeys_cons, List.nodup_cons]
      refine ⟨fun hmem => ?_, ih h.2⟩
      rcases mem_dkeys_dset.mp hmem with hmem | rfl
      · exact h.1 hmem
      · exact hk rfl

theorem length_dset_of_mem {β : Type} {d : Dict β} {x : V} (b : β)
    (h : x ∈ dkeys d) : (dset d x b).length = d.length := by
  induction d with
  | nil => simp at h
  | cons q d ih =>
    obtain ⟨k, c⟩ := q
    by_cases hk : k = x
    · simp [dset, hk]
    · simp only [dkeys_cons, List.mem_cons] at h
      rcases h with rfl | h
      · exact absurd rfl hk
      · simp [dset, hk, ih h]

theorem length_dset_of_not_mem {β : Type} {d : Dict β} {x : V} (b : β)
    (h : x ∉ dkeys d) : (dset d x b).length = d.length + 1 := by
  induction d with
  | nil => simp [dset]
  | cons q d ih =>
    obtain ⟨k, c⟩ := q
    simp only [dkeys_cons, List.mem_cons] at h
    push_neg at h
    have hk : k ≠ x := fun hh => h.1 hh.symm
    simp [dset, hk, ih h.2]

theorem dvalues_dset_of_not_mem {β : Type} {d : Dict β} {x : V} (b : β)
    (h : x ∉ dkeys d) : dvalues (dset d x b) = dvalues d ++ [b] := by
  induction d with
  | nil => simp [dset]
  | cons q d ih =>
    obtain ⟨k, c⟩ := q
    simp only [dkeys_cons, List.mem_cons] at h
    push_neg at h
    have hk : k ≠ x := fun hh => h.1 hh.symm
    simp [dset, hk, ih h.2]

theorem mem_dvalues_dset {β : Type} {d : Dict β} {x : V} {y b : β}
    (h : y ∈ dvalues (dset d x b)) : y = b ∨ y ∈ dvalues d := by
  induction d with
  | nil => simpa [dset] using h
  | cons q d ih =>
    obtain ⟨k, c⟩ := q
    by_cases hk : k = x
    · rw [show dset ((k, c) :: d) x b = (k, b) :: d by simp [dset, hk]] at h
      simp only [dvalues_cons, List.mem_cons] at h ⊢
      tauto
    · rw [show dset ((k, c) :: d) x b = (k, c) :: dset d x b by
        simp [dset, hk]] at h
      simp only [dvalues_cons, List.mem_cons] at h ⊢
      rcases h with h | h
      · tauto
      · rcases ih h with h | h <;> tauto

theorem nodup_dvalues_dset {β : Type} {d : Dict β} {x : V} {b : β}
    (hv : (dvalues d).Nodup) (hb : b ∉ dvalues d) :
    (dvalues (dset d x b)).Nodup := by
  induction d with
  | nil => simp [dset]
  | cons q d ih =>
    obtain ⟨k, c⟩ := q
    simp only [dvalues_cons, List.nodup_cons, List.mem_cons] at hv hb
    push_neg at hb
    by_cases hk : k = x
    · rw [show dset ((k, c) :: d) x b = (k, b) :: d by simp [dset, hk]]
      simp only [dvalues_cons, List.nodup_cons]
      exact ⟨hb.2, hv.2⟩
    · rw [show dset ((k, c) :: d) x b = (k, c) :: dset d x b by
        simp [dset, hk]]
      simp only [dvalues_cons, List.nodup_cons]
      refine ⟨fun hmem => ?_, ih hv.2 hb.2⟩
      rcases mem_dvalues_dset hmem with rfl | hmem
      · exact hb.1 rfl
      · exact hv.1 hmem

theorem old_value_not_mem_dvalues_dset {β : Type} {d : Dict β} {x : V} {b w : β}
    (hv : (dvalues d).Nodup) (hw : dget? d x = some w) (hne : w ≠ b) :
    w ∉ dvalues (dset d x b) := by
  induction d with
  | nil => simp at hw
  | cons q d ih =>
    obtain ⟨k, c⟩ := q
    simp only [dvalues_cons, List.nodup_cons] at hv
    rw [dget?_cons] at hw
    by_cases hx : x = k
    · rw [if_pos hx, Option.some_inj] at hw
      subst hw
      rw [show dset ((k, c) :: d) x b = (k, b) :: d by simp [dset, hx.symm]]
      simp only [dvalues_cons, List.mem_cons]
      push_neg
      exact ⟨hne, hv.1⟩
    · rw [if_neg hx] at hw
      have hk : k ≠ x := fun hh => hx hh.symm
      rw [show dset ((k, c) :: d) x b = (k, c) :: dset d x b by
        simp [dset, hk]]
      simp only [dvalues_cons, List.mem_cons]
      push_neg
      refine ⟨fun hwc => ?_, ih hv.2 hw⟩
      subst hwc
      exact hv.1 (dget?_mem_dvalues hw)

theorem dappend_list_mem {nl : Dict (List V)} {x u : V} {p : V × List V}
    (hp : p ∈ dappend nl x u) {w : V} (hw : w ∈ p.2) :
    (∃ L, (p.1, L) ∈ nl ∧ w ∈ L) ∨ (p.1 = x ∧ w = u) := by
  induction nl generalizing p with
  | nil =>
    simp only [dappend, List.mem_singleton] at hp
    subst hp
    simp only [List.mem_singleton] at hw
    exact Or.inr ⟨rfl, hw⟩
  | cons q nl ih =>
    obtain ⟨k, L⟩ := q
    by_cases hk : k = x
    · rw [show dappend ((k, L) :: nl) x u = (k, L ++ [u]) :: nl by
        simp [dappend, hk]] at hp
      rcases List.mem_cons.mp hp with hp1 | hp1
      · subst hp1
        simp only [List.mem_append, List.mem_singleton] at hw
        rcases hw with hw | hw
        · exact Or.inl ⟨L, List.mem_cons_self _ _, hw⟩
        · exact Or.inr ⟨hk, hw⟩
      · exact Or.inl ⟨p.2, List.mem_cons_of_mem _ (by simpa using hp1), hw⟩
    · rw [show dappend ((k, L) :: nl) x u = (k, L) :: dappend nl x u by
        simp [dappend, hk]] at hp
      rcases List.mem_cons.mp hp with hp1 | hp1
      · subst hp1
        exact Or.inl ⟨L, List.mem_cons_self _ _, hw⟩
      · rcases ih hp1 hw with ⟨L', hL', hwL⟩ | hh
        · exact Or.inl ⟨L', List.mem_cons_of_mem _ hL', hwL⟩
        · exact Or.inr hh

theorem mem_dkeys_dappend {nl : Dict (List V)} {x y u : V} :
    y ∈ dkeys (dappend nl x u) ↔ y ∈ dkeys nl ∨ y = x := by
  induction nl with
  | nil => simp [dappend]
  | cons q nl ih =>
    obtain ⟨k, L⟩ := q
    by_cases hk : k = x
    · rw [show dappend ((k, L) :: nl) x u = (k, L ++ [u]) :: nl by
        simp [dappend, hk]]
      subst hk; simp; tauto
    · rw [show dappend ((k, L) :: nl) x u = (k, L) :: dappend nl x u by
        simp [dappend, hk]]
      simp [ih, or_assoc]

theorem nodup_dkeys_dappend {nl : Dict (List V)} {x u : V}
    (h : (dkeys nl).Nodup) : (dkeys (dappend nl x u)).Nodup := by
  induction nl with
  | nil => simp [dappend]
  | cons q nl ih =>
    obtain ⟨k, L⟩ := q
    simp only [dkeys_cons, List.nodup_cons] at h
    by_cases hk : k = x
    · rw [show dappend ((k, L) :: nl) x u = (k, L ++ [u]) :: nl by
        simp [dappend, hk]]
      simpa using h
    · rw [show dappend ((k, L) :: nl) x u = (k, L) :: dappend nl x u by
        simp [dappend, hk]]
      simp only [dkeys_cons, List.nodup_cons]
      refine ⟨fun hmem => ?_, ih h.2⟩
      rcases mem_dkeys_dappend.mp hmem with hmem | hmem
      · exact h.1 hmem
      · exact hk hmem

theorem dappend_list_ne_nil {nl : Dict (List V)} {x u : V}
    (h : ∀ p ∈ nl, p.2 ≠ ([] : List V)) :
    ∀ p ∈ dappend nl x u, p.2 ≠ ([] : List V) := by
  induction nl with
  | nil =>
    intro p hp
    simp only [dappend, List.mem_singleton] at hp
    subst hp; simp
  | cons q nl ih =>
    obtain ⟨k, L⟩ := q
    intro p hp
    by_cases hk : k = x
    · rw [show dappend ((k, L) :: nl) x u = (k, L ++ [u]) :: nl by
        simp [dappend, hk]] at hp
      rcases List.mem_cons.mp hp with hp1 | hp1
      · subst hp1; simp
      · exact h p (List.mem_cons_of_mem _ hp1)
    · rw [show dappend ((k, L) :: nl) x u = (k, L) :: dappend nl x u by
        simp [dappend, hk]] at hp
      rcases List.mem_cons.mp hp with hp1 | hp1
      · subst hp1; exact h _ (List.mem_cons_self _ _)
      · exact ih (fun p hp => h p (List.mem_cons_of_mem _ hp)) p hp1

theorem dget?_dappend_self (d : Dict (List V)) (x u : V) :
    dget? (dappend d x u) x = some (((dget? d x).getD []) ++ [u]) := by
  induction d with
  | nil => simp [dappend, dget?_cons]
  | cons q d ih =>
    obtain ⟨k, L⟩ := q
    by_cases hk : k = x
    · rw [show dappend ((k, L) :: d) x u = (k, L ++ [u]) :: d by
        simp [dappend, hk]]
      simp [dget?_cons, hk.symm]
    · have hx : x ≠ k := fun hh => hk hh.symm
      rw [show dappend ((k, L) :: d) x u = (k, L) :: dappend d x u by
        simp [dappend, hk]]
      simp [dget?_cons, hx, ih]

theorem dget?_dappend_ne (d : Dict (List V)) (x y u : V) (h : y ≠ x) :
    dget? (dappend d x u) y = dget? d y := by
  induction d with
  | nil => simp [dappend, dget?_cons, h]
  | cons q d ih =>
    obtain ⟨k, L⟩ := q
    by_cases hk : k = x
    · rw [show dappend ((k, L) :: d) x u = (k, L ++ [u]) :: d by
        simp [dappend, hk]]
      subst hk
      simp [dget?_cons, h]
    · rw [show dappend ((k, L) :: d) x u = (k, L) :: dappend d x u by
        simp [dappend, hk]]
      by_cases hy : y = k <;> simp [dget?_cons, hy, ih]

/-! ## The Graph Builder: `CreateBigraph`

```python
def CreateBigraph(attendees, couples):
  g = {}
  randomized_attendees = attendees.keys()
  random.shuffle(randomized_attendees)
  for p1 in attendees.iterkeys():
    for p2 in randomized_attendees:
      if p1 is p2 or (p1, p2) in couples or (p2, p1) in couples:
        continue
      g.setdefault(p1, []).append(p2)
  return g
```

`ps` is the attendee key list and `order` the shuffled copy produced by
`random.shuffle` (injected as a parameter; it is a permutation of `ps`).
The `p1 is p2` identity test compares two aliases of the same interned
dict-key object in CPython, hence is modelled as equality.
-/

/-- One giver's row of the double loop in `CreateBigraph`. -/
def bigraphInner (couples : List (V × V)) (p1 : V) (g : Dict (List V))
    (order : List V) : Dict (List V) :=
  order.foldl (fun g p2 =>
    if p1 = p2 ∨ (p1, p2) ∈ couples ∨ (p2, p1) ∈ couples then g
    else dappend g p1 p2) g

/-- `CreateBigraph(attendees, couples)` with the shuffled order injected. -/
def createBigraph (ps : List V) (couples : List (V × V)) (order : List V) :
    Dict (List V) :=
  ps.foldl (fun g p1 => bigraphInner couples p1 g order) []

/-- `graph[u]` with a `[]` default; every use site is proved in-domain. -/
def graphAt (g : Dict (List V)) (u : V) : List V := (dget? g u).getD []

/-- The recipients the double loop appends for giver `p1`. -/
def allowedList (couples : List (V × V)) (p1 : V) (l : List V) : List V :=
  l.filter (fun p2 =>
    decide (¬(p1 = p2 ∨ (p1, p2) ∈ couples ∨ (p2, p1) ∈ couples)))

theorem mem_allowedList {c : List (V × V)} {p1 q : V} {l : List V} :
    q ∈ allowedList c p1 l ↔
      q ∈ l ∧ ¬(p1 = q ∨ (p1, q) ∈ c ∨ (q, p1) ∈ c) := by
  simp [allowedList, List.mem_filter]

theorem allowedList_cons (c : List (V × V)) (p1 p2 : V) (l : List V) :
    allowedList c p1 (p2 :: l) =
      if p1 = p2 ∨ (p1, p2) ∈ c ∨ (p2, p1) ∈ c then allowedList c p1 l
      else p2 :: allowedList c p1 l := by
  by_cases hg : p1 = p2 ∨ (p1, p2) ∈ c ∨ (p2, p1) ∈ c
  · rw [if_pos hg]
    simp only [allowedList, List.filter_cons]
    rw [decide_eq_false (not_not_intro hg)]
    simp
  · rw [if_neg hg]
    simp only [allowedList, List.filter_cons]
    rw [decide_eq_true hg]
    simp

theorem bigraphInner_get_ne (c : List (V × V)) (p1 x : V) (g : Dict (List V))
    (l : List V) (h : x ≠ p1) :
    dget? (bigraphInner c p1 g l) x = dget? g x := by
  induction l generalizing g with
  | nil => rfl
  | cons p2 l ih =>
    simp only [bigraphInner, List.foldl_cons]
    by_cases hg : p1 = p2 ∨ (p1, p2) ∈ c ∨ (p2, p1) ∈ c
    · rw [if_pos hg]; exact ih g
    · rw [if_neg hg]
      exact (ih (dappend g p1 p2)).trans (dget?_dappend_ne _ _ _ _ h)

theorem bigraphInner_get_some (c : List (V × V)) (p1 : V) (g : Dict (List V))
    (l : List V) (L0 : List V) (h : dget? g p1 = some L0) :
    dget? (bigraphInner c p1 g l) p1 = some (L0 ++ allowedList c p1 l) := by
  induction l generalizing g L0 with
  | nil => simpa [bigraphInner, allowedList] using h
  | cons p2 l ih =>
    rw [allowedList_cons]
    simp only [bigraphInner, List.foldl_cons]
    by_cases hg : p1 = p2 ∨ (p1, p2) ∈ c ∨ (p2, p1) ∈ c
    · rw [if_pos hg, if_pos hg]
      exact ih g L0 h
    · rw [if_neg hg, if_neg hg]
      have hap : dget? (dappend g p1 p2) p1 = some (L0 ++ [p2]) := by
        rw [dget?_dappend_self, h]; rfl
      have := ih (dappend g p1 p2) (L0 ++ [p2]) hap
      rw [show bigraphInner c p1 (dappend g p1 p2) l =
          List.foldl (fun g p2 =>
            if p1 = p2 ∨ (p1, p2) ∈ c ∨ (p2, p1) ∈ c then g
            else dappend g p1 p2) (dappend g p1 p2) l from rfl] at this
      rw [this]
      simp

theorem bigraphInner_get_none (c : List (V × V)) (p1 : V) (g : Dict (List V))
    (l : List V) (h : dget? g p1 = none) :
    dget? (bigraphInner c p1 g l) p1 =
      match allowedList c p1 l with
      | [] => none
      | L => some L := by
  induction l generalizing g with
  | nil => simpa [bigraphInner, allowedList] using h
  | cons p2 l ih =>
    rw [allowedList_cons]
    simp only [bigraphInner, List.foldl_cons]
    by_cases hg : p1 = p2 ∨ (p1, p2) ∈ c ∨ (p2, p1) ∈ c
    · rw [if_pos hg, if_pos hg]
      exact ih g h
    · rw [if_neg hg, if_neg hg]
      have hap : dget? (dappend g p1 p2) p1 = some [p2] := by
        rw [dget?_dappend_self, h]; rfl
      have := bigraphInner_get_some c p1 (dappend g p1 p2) l [p2] hap
      rw [show bigraphInner c p1 (dappend g p1 p2) l =
          List.foldl (fun g p2 =>
            if p1 = p2 ∨ (p1, p2) ∈ c ∨ (p2, p1) ∈ c then g
            else dappend g p1 p2) (dappend g p1 p2) l from rfl] at this
      rw [this]
      rfl

theorem bigraphOuter_get_not_mem (c : List (V × V)) (o : List V)
    {ps : List V} {p : V} (h : p ∉ ps) (g0 : Dict (List V)) :
    dget? (ps.foldl (fun g p1 => bigraphInner c p1 g o) g0) p = dget? g0 p := by
  induction ps generalizing g0 with
  | nil => rfl
  | cons p1 ps ih =>
    simp only [List.mem_cons] at h
    push_neg at h
    simp only [List.foldl_cons]
    rw [ih h.2, bigraphInner_get_ne c p1 p g0 o h.1]

theorem createBigraph_get_of_mem {ps : List V} {c : List (V × V)} {o : List V}
    {p : V} (hnd : ps.Nodup) (h : p ∈ ps) :
    dget? (createBigraph ps c o) p =
      match allowedList c p o with
      | [] => none
      | L => some L := by
  suffices H : ∀ (ps : List V) (g0 : Dict (List V)), ps.Nodup → p ∈ ps →
      dget? g0 p = none →
      dget? (ps.foldl (fun g p1 => bigraphInner c p1 g o) g0) p =
        match allowedList c p o with
        | [] => none
        | L => some L from H ps [] hnd h rfl
  intro ps
  induction ps with
  | nil => intro g0 _ h _; simp at h
  | cons p1 ps ih =>
    intro g0 hnd h h0
    simp only [List.nodup_cons] at hnd
    simp only [List.foldl_cons]
    rcases List.mem_cons.mp h with rfl | h1
    · rw [bigraphOuter_get_not_mem c o hnd.1]
      exact bigraphInner_get_none c p g0 o h0
    · have hp1 : p ≠ p1 := by rintro rfl; exact hnd.1 h1
      exact ih _ hnd.2 h1 ((bigraphInner_get_ne c p1 p g0 o hp1).trans h0)

theorem createBigraph_get_of_not_mem {ps : List V} {c : List (V × V)}
    {o : List V} {p : V} (h : p ∉ ps) :
    dget? (createBigraph ps c o) p = none :=
  bigraphOuter_get_not_mem c o h []

/-- Full characterization of candidate-list membership in the built graph. -/
theorem mem_graphAt_createBigraph {ps : List V} {c : List (V × V)} {o : List V}
    {p q : V} (hnd : ps.Nodup) :
    q ∈ graphAt (createBigraph ps c o) p ↔
      p ∈ ps ∧ q ∈ o ∧ ¬(p = q ∨ (p, q) ∈ c ∨ (q, p) ∈ c) := by
  by_cases hp : p ∈ ps
  · rw [graphAt, createBigraph_get_of_mem hnd hp]
    rcases hL : allowedList c p o with _ | ⟨x, L⟩
    · simp only [Option.getD_none]
      constructor
      · intro hq; simp at hq
      · rintro ⟨_, hq, hg⟩
        have : q ∈ allowedList c p o := mem_allowedList.mpr ⟨hq, hg⟩
        rw [hL] at this; simp at this
    · simp only [Option.getD_some]
      rw [← hL, mem_allowedList]
      tauto
  · rw [graphAt, createBigraph_get_of_not_mem hp]
    simp [hp]

theorem nodup_dkeys_bigraphInner (c : List (V × V)) (p1 : V)
    (g : Dict (List V)) (o : List V) (h : (dkeys g).Nodup) :
    (dkeys (bigraphInner c p1 g o)).Nodup := by
  induction o generalizing g with
  | nil => exact h
  | cons p2 o ih =>
    simp only [bigraphInner, List.foldl_cons]
    by_cases hg : p1 = p2 ∨ (p1, p2) ∈ c ∨ (p2, p1) ∈ c
    · rw [if_pos hg]; exact ih g h
    · rw [if_neg hg]; exact ih _ (nodup_dkeys_dappend h)

/-- The built graph always has distinct keys (it is a Python dict). -/
theorem nodup_dkeys_createBigraph (ps : List V) (c : List (V × V))
    (o : List V) : (dkeys (createBigraph ps c o)).Nodup := by
  suffices H : ∀ g0 : Dict (List V), (dkeys g0).Nodup →
      (dkeys (ps.foldl (fun g p1 => bigraphInner c p1 g o) g0)).Nodup from
    H [] List.nodup_nil
  induction ps with
  | nil => intro g0 h; exact h
  | cons p1 ps ih =>
    intro g0 h
    exact ih _ (nodup_dkeys_bigraphInner c p1 g0 o h)

/-- Keys of the built graph: exactly the givers with a nonempty list. -/
theorem mem_dkeys_createBigraph {ps : List V} {c : List (V × V)} {o : List V}
    {p : V} (hnd : ps.Nodup) :
    p ∈ dkeys (createBigraph ps c o) ↔
      p ∈ ps ∧ ∃ q ∈ o, ¬(p = q ∨ (p, q) ∈ c ∨ (q, p) ∈ c) := by
  rw [← dget?_isSome_iff_mem_dkeys]
  by_cases hp : p ∈ ps
  · rw [createBigraph_get_of_mem hnd hp]
    rcases hL : allowedList c p o with _ | ⟨x, L⟩
    · simp only [Option.isSome_none, Bool.false_eq_true, false_iff]
      rintro ⟨_, q, hq, hg⟩
      have : q ∈ allowedList c p o := mem_allowedList.mpr ⟨hq, hg⟩
      rw [hL] at this; simp at this
    · simp only [Option.isSome_some, true_iff]
      refine ⟨hp, x, ?_⟩
      have : x ∈ allowedList c p o := by rw [hL]; exact List.mem_cons_self _ _
      exact mem_allowedList.mp this
  · rw [createBigraph_get_of_not_mem hp]
    simp [hp]

/-! ## The Cycle Validator: `MakeSureEverybodyHasGift`

```python
def MakeSureEverybodyHasGift(attendees_mapping):
  attendees = attendees_mapping.copy()
  while attendees:
    count = 1
    root = attendees.keys()[0]
    a = attendees[root]
    while a is not root:
      a = attendees.pop(a)
      count += 1
    print 'Cycle with %d people' % count
    attendees.pop(a)
```

`walk` is the inner loop plus the final `attendees.pop(a)`; a `none`
result models an uncaught `KeyError` from `attendees.pop`.  The reported
cycle sizes (the `print`ed counts) are collected into a list.
-/

theorem derase_of_not_mem {β : Type} {d : Dict β} {x : V}
    (h : x ∉ dkeys d) : derase d x = d := by
  induction d with
  | nil => rfl
  | cons q d ih =>
    obtain ⟨k, b⟩ := q
    simp only [dkeys_cons, List.mem_cons] at h
    push_neg at h
    have hk : k ≠ x := fun hh => h.1 hh.symm
    simp only [derase, if_neg hk]
    rw [ih h.2]

theorem length_derase_of_nodup {β : Type} {d : Dict β} {x : V}
    (hnd : (dkeys d).Nodup) (h : x ∈ dkeys d) :
    (derase d x).length + 1 = d.length := by
  induction d with
  | nil => simp at h
  | cons q d ih =>
    obtain ⟨k, b⟩ := q
    simp only [dkeys_cons, List.nodup_cons] at hnd
    by_cases hk : k = x
    · subst hk
      rw [show derase ((k, b) :: d) k = derase d k by simp [derase]]
      rw [derase_of_not_mem hnd.1]
      simp
    · simp only [dkeys_cons, List.mem_cons] at h
      rcases h with rfl | h
      · exact absurd rfl hk
      · simp only [derase, if_neg hk, List.length_cons]
        rw [← ih hnd.2 h]

theorem dvalues_derase_sublist {β : Type} (d : Dict β) (x : V) :
    (dvalues (derase d x)).Sublist (dvalues d) := by
  induction d with
  | nil => simp [derase]
  | cons q d ih =>
    obtain ⟨k, b⟩ := q
    by_cases hk : k = x
    · simpa [derase, hk] using ih.cons b
    · simpa [derase, hk] using ih.cons₂ b

theorem nodup_dvalues_derase {β : Type} {d : Dict β} (x : V)
    (h : (dvalues d).Nodup) : (dvalues (derase d x)).Nodup :=
  (dvalues_derase_sublist d x).nodup h

/-- The inner `while a is not root` loop followed by `attendees.pop(a)`.
Returns the printed count and the remaining dict; `none` is a `KeyError`. -/
def walk (d : Dict V) (root a : V) (count : Nat) : Option (Nat × Dict V) :=
  if a = root then
    match dget? d root with
    | none => none
    | some _ => some (count, derase d root)
  else
    match h : dget? d a with
    | none => none
    | some a2 => walk (derase d a) root a2 (count + 1)
termination_by d.length
decreasing_by exact length_derase_lt (mem_dkeys_of_dget? h)

theorem walk_base (d : Dict V) (root : V) (count : Nat) :
    walk d root root count =
      match dget? d root with
      | none => none
      | some _ => some (count, derase d root) := by
  rw [walk]
  simp

theorem walk_step (d : Dict V) (root a : V) (count : Nat) (hne : a ≠ root) :
    walk d root a count =
      match dget? d a with
      | none => none
      | some a2 => walk (derase d a) root a2 (count + 1) := by
  rw [walk, if_neg hne]
  split
  · rename_i heq; rw [heq]
  · rename_i a2 heq; rw [heq]

theorem walk_length_lt : ∀ (n : Nat) (d : Dict V) (root a : V)
    (c c2 : Nat) (d2 : Dict V), d.length ≤ n →
    walk d root a c = some (c2, d2) → d2.length < d.length := by
  intro n
  induction n with
  | zero =>
    intro d root a c c2 d2 hn hw
    have : d = [] := List.length_eq_zero.mp (Nat.le_zero.mp hn)
    subst this
    by_cases ha : a = root
    · subst ha; rw [walk_base] at hw; simp at hw
    · rw [walk_step _ _ _ _ ha] at hw; simp at hw
  | succ n ih =>
    intro d root a c c2 d2 hn hw
    by_cases ha : a = root
    · subst ha
      rw [walk_base] at hw
      rcases hg : dget? d a with _ | b
      · rw [hg] at hw; exact absurd hw (by simp)
      · rw [hg] at hw
        simp only [Option.some_inj, Prod.mk.injEq] at hw
        rw [← hw.2]
        exact length_derase_lt (mem_dkeys_of_dget? hg)
    · rw [walk_step _ _ _ _ ha] at hw
      rcases hg : dget? d a with _ | a2
      · rw [hg] at hw; exact absurd hw (by simp)
      · rw [hg] at hw
        have hlt := length_derase_lt (mem_dkeys_of_dget? hg)
        have := ih (derase d a) root a2 (c + 1) c2 d2 (by omega) hw
        omega

theorem entry_eq_of_nodup_dvalues {β : Type} {d : Dict β}
    (h : (dvalues d).Nodup) {p q : V × β} (hp : p ∈ d) (hq : q ∈ d)
    (hpq : p.2 = q.2) : p = q :=
  List.inj_on_of_nodup_map h hp hq hpq

/-- Full specification of one cycle-following pass of the validator on a
well-formed (sub)dictionary: it succeeds, consumes exactly the reported
count of entries, and leaves a well-formed remainder without `root`. -/
theorem walk_spec : ∀ (n : Nat) (d : Dict V) (root a : V) (c : Nat),
    d.length ≤ n →
    (dkeys d).Nodup →
    (dvalues d).Nodup →
    root ∈ dkeys d →
    (a ≠ root → a ∈ dkeys d) →
    (∀ p ∈ d, p.1 ≠ root → p.2 ∈ dkeys d) →
    (∀ p ∈ d, p.2 = a → p.1 = root) →
    ∃ c2 d2, walk d root a c = some (c2, d2) ∧
      c2 + d2.length + 1 = c + d.length ∧
      c ≤ c2 ∧
      (a ≠ root → c + 1 ≤ c2) ∧
      (dkeys d2).Nodup ∧
      (dvalues d2).Nodup ∧
      (∀ p ∈ d2, p ∈ d) ∧
      (∀ p ∈ d2, p.2 ∈ dkeys d2) ∧
      root ∉ dkeys d2 := by
  intro n
  induction n with
  | zero =>
    intro d root a c hn hk hv hroot ha hcl hpt
    have : d = [] := List.length_eq_zero.mp (Nat.le_zero.mp hn)
    subst this
    simp at hroot
  | succ n ih =>
    intro d root a c hn hk hv hroot ha hcl hpt
    by_cases har : a = root
    · subst har
      rcases hg : dget? d a with _ | b
      · exact absurd (dget?_eq_none_iff.mp hg) (by simpa using hroot)
      · refine ⟨c, derase d a, ?_, ?_, Nat.le_refl c, ?_, ?_, ?_, ?_, ?_, ?_⟩
        · rw [walk_base, hg]
        · have := length_derase_of_nodup hk hroot
          omega
        · intro h; exact absurd rfl h
        · exact nodup_dkeys_derase a hk
        · exact nodup_dvalues_derase a hv
        · intro p hp; exact (mem_derase.mp hp).1
        · intro p hp
          obtain ⟨hpd, hp1⟩ := mem_derase.mp hp
          have h2 : p.2 ∈ dkeys d := hcl p hpd hp1
          have h3 : p.2 ≠ a := fun hh => hp1 (hpt p hpd hh)
          exact mem_dkeys_derase.mpr ⟨h2, h3⟩
        · intro hmem
          exact absurd (mem_dkeys_derase.mp hmem).2 (by simp)
    · have haK : a ∈ dkeys d := ha har
      rcases hg : dget? d a with _ | a2
      · exact absurd (dget?_eq_none_iff.mp hg) (by simpa using haK)
      · have hent : (a, a2) ∈ d := mem_of_dget? hg
        have hlen : (derase d a).length + 1 = d.length :=
          length_derase_of_nodup hk haK
        have ha2a : a2 ≠ a := by
          intro hh
          exact har (hpt (a, a2) hent hh)
        have hIH := ih (derase d a) root a2 (c + 1) (by omega)
          (nodup_dkeys_derase a hk) (nodup_dvalues_derase a hv)
          (mem_dkeys_derase.mpr ⟨hroot, fun hh => har hh.symm⟩)
          (fun ha2r => mem_dkeys_derase.mpr ⟨hcl (a, a2) hent har, ha2a⟩)
          (fun p hp hp1 => by
            obtain ⟨hpd, hpa⟩ := mem_derase.mp hp
            have h2 : p.2 ∈ dkeys d := hcl p hpd hp1
            have h3 : p.2 ≠ a := fun hh => hp1 (hpt p hpd hh)
            exact mem_dkeys_derase.mpr ⟨h2, h3⟩)
          (fun p hp hp2 => by
            obtain ⟨hpd, hpa⟩ := mem_derase.mp hp
            have : p = (a, a2) := entry_eq_of_nodup_dvalues hv hpd hent hp2
            exact absurd (congrArg Prod.fst this) hpa)
        obtain ⟨c2, d2, hw2, hlen2, hge, hge1, hk2, hv2, hsub, hcl2, hr2⟩ := hIH
        refine ⟨c2, d2, ?_, by omega, by omega, fun _ => by omega,
          hk2, hv2, ?_, hcl2, hr2⟩
        · rw [walk_step _ _ _ _ har, hg]
          exact hw2
        · intro p hp
          exact (mem_derase.mp (hsub p hp)).1

/-- `MakeSureEverybodyHasGift`, returning the list of printed cycle
sizes, or `none` for an uncaught `KeyError`. -/
def makeSureEverybodyHasGift : Dict V → Option (List Nat)
  | [] => some []
  | (root, a0) :: rest =>
    match h : walk ((root, a0) :: rest) root a0 1 with
    | none => none
    | some (c, d2) =>
      match makeSureEverybodyHasGift d2 with
      | none => none
      | some cs => some (c :: cs)
termination_by d => d.length
decreasing_by exact walk_length_lt _ _ root a0 1 c d2 (Nat.le_refl _) h

theorem makeSure_nil : makeSureEverybodyHasGift [] = some [] := by
  rw [makeSureEverybodyHasGift]

theorem makeSure_cons (root a0 : V) (rest : Dict V) :
    makeSureEverybodyHasGift ((root, a0) :: rest) =
      match walk ((root, a0) :: rest) root a0 1 with
      | none => none
      | some (c, d2) =>
        match makeSureEverybodyHasGift d2 with
        | none => none
        | some cs => some (c :: cs) := by
  rw [makeSureEverybodyHasGift]
  split
  · rename_i heq; rw [heq]
  · rename_i c d2 heq; rw [heq]

/-- A complete matching: the recipient→giver map is a bijection of its
key set (distinct keys, distinct givers, every giver is also a key). -/
def IsPermDict (d : Dict V) : Prop :=
  (dkeys d).Nodup ∧ (dvalues d).Nodup ∧ ∀ p ∈ d, p.2 ∈ dkeys d

/-- On a complete matching the validator succeeds and the printed cycle
sizes sum to the number of participants; cycles of length 1 appear only
at self-assignments. -/
theorem makeSure_spec : ∀ (n : Nat) (d : Dict V), d.length ≤ n →
    IsPermDict d →
    ∃ cs, makeSureEverybodyHasGift d = some cs ∧ cs.sum = d.length ∧
      ((∀ p ∈ d, p.2 ≠ p.1) → ∀ x ∈ cs, 2 ≤ x) := by
  intro n
  induction n with
  | zero =>
    intro d hn _
    have : d = [] := List.length_eq_zero.mp (Nat.le_zero.mp hn)
    subst this
    exact ⟨[], makeSure_nil, rfl, by intro _ x hx; simp at hx⟩
  | succ n ih =>
    intro d hn hperm
    obtain ⟨hk, hv, hcl⟩ := hperm
    match d with
    | [] => exact ⟨[], makeSure_nil, rfl, by intro _ x hx; simp at hx⟩
    | (root, a0) :: rest =>
      have hroot : root ∈ dkeys ((root, a0) :: rest) := by simp
      have hent : (root, a0) ∈ (root, a0) :: rest := List.mem_cons_self _ _
      obtain ⟨c2, d2, hw, hlen, hge, hge1, hk2, hv2, hsub, hcl2, hr2⟩ :=
        walk_spec ((root, a0) :: rest).length ((root, a0) :: rest) root a0 1
          (Nat.le_refl _) hk hv hroot
          (fun _ => hcl (root, a0) hent)
          (fun p hp _ => hcl p hp)
          (fun p hp hp2 => by
            have : p = (root, a0) := entry_eq_of_nodup_dvalues hv hp hent hp2
            exact congrArg Prod.fst this)
      have hlen2 : d2.length ≤ n := by
        have hL : ((root, a0) :: rest).length = rest.length + 1 := rfl
        omega
      obtain ⟨cs, hcs, hsum, hone⟩ := ih d2 hlen2 ⟨hk2, hv2, hcl2⟩
      refine ⟨c2 :: cs, ?_, ?_, ?_⟩
      · rw [makeSure_cons, hw]
        simp [hcs]
      · simp only [List.sum_cons, hsum]
        have hL : ((root, a0) :: rest).length = rest.length + 1 := rfl
        simp only [List.length_cons]
        omega
      · intro hns x hx
        rcases List.mem_cons.mp hx with rfl | hx
        · have ha0 : a0 ≠ root := hns (root, a0) hent
          have := hge1 ha0
          omega
        · exact hone (fun p hp => hns p (hsub p hp)) x hx

/-! ## The Matching Engine: `BipartiteMatch`

```python
def BipartiteMatch(graph):
  # initialize greedy matching
  matching = {}
  for u in graph:
    for v in graph[u]:
      if v not in matching:
        matching[v] = u
        break
  while 1:
    # structure residual graph into layers
    preds = {}
    unmatched = []
    pred = dict([(u,unmatched) for u in graph])
    for v in matching:
      del pred[matching[v]]
    layer = list(pred)
    while layer and not unmatched:
      new_layer = {}
      for u in layer:
        for v in graph[u]:
          if v not in preds:
            new_layer.setdefault(v, []).append(u)
      layer = []
      for v in new_layer:
        preds[v] = new_layer[v]
        if v in matching:
          layer.append(matching[v])
          pred[matching[v]] = v
        else:
          unmatched.append(v)
    if not unmatched:
      unlayered = {}
      for u in graph:
        for v in graph[u]:
          if v not in preds:
            unlayered[v] = None
      return (matching,list(pred),list(unlayered))
    def Recurse(v):
      if v in preds:
        L = preds[v]
        del preds[v]
        for u in L:
          if u in pred:
            pu = pred[u]
            del pred[u]
            if pu is unmatched or Recurse(pu):
              matching[v] = u
              return 1
      return 0
    for v in unmatched: Recurse(v)
```

The unbounded `while 1` phase loop and the recursive `Recurse` are given
explicit fuel; a `none` result marks fuel exhaustion, and the fuel used
by `bipartiteMatch` is proved sufficient below, so the total function
agrees with the Python source wherever the latter terminates.
-/

abbrev Graph := Dict (List V)

/-- The inner `for v in graph[u]` loop of the greedy seeding. -/
def greedyRow (m : Dict V) (u : V) : List V → Dict V
  | [] => m
  | v :: vs => if v ∈ dkeys m then greedyRow m u vs else dset m v u

/-- The greedy initial matching. -/
def greedyMatching (g : Graph) : Dict V :=
  g.foldl (fun m p => greedyRow m p.1 p.2) []

/-- `pred = dict([(u,unmatched) for u in graph])` followed by
`for v in matching: del pred[matching[v]]`. -/
def predInit (g : Graph) (m : Dict V) : Dict (Option V) :=
  m.foldl (fun pr p => derase pr p.2)
    (g.map (fun p => (p.1, (none : Option V))))

/-- State of the BFS layering loop. -/
structure LayerSt where
  preds : Dict (List V)
  pred : Dict (Option V)
  layer : List V
  unmatched : List V
  deriving Repr, DecidableEq

/-- One giver's contribution to `new_layer`. -/
def expandRow (g : Graph) (preds : Dict (List V)) (nl : Dict (List V))
    (u : V) : Dict (List V) :=
  (graphAt g u).foldl
    (fun nl v => if v ∈ dkeys preds then nl else dappend nl v u) nl

/-- The whole `new_layer` built from the current layer. -/
def expandLayer (g : Graph) (preds : Dict (List V)) (layer : List V) :
    Dict (List V) :=
  layer.foldl (fun nl u => expandRow g preds nl u) []

/-- `for v in new_layer: ...` (the merge half of a layering iteration). -/
def mergeEntry (m : Dict V) (st : LayerSt) (p : V × List V) : LayerSt :=
  match dget? m p.1 with
  | some u =>
    { st with preds := dset st.preds p.1 p.2,
              pred := dset st.pred u (some p.1),
              layer := st.layer ++ [u] }
  | none =>
    { st with preds := dset st.preds p.1 p.2,
              unmatched := st.unmatched ++ [p.1] }

def mergeLayer (m : Dict V) (st : LayerSt) (nl : Dict (List V)) : LayerSt :=
  nl.foldl (mergeEntry m) st

/-- The `while layer and not unmatched` loop. -/
def buildLayers (g : Graph) (m : Dict V) : Nat → LayerSt → Option LayerSt
  | 0, _ => none
  | fuel + 1, st =>
    if st.layer = [] ∨ st.unmatched ≠ [] then some st
    else
      buildLayers g m fuel
        (mergeLayer m { st with layer := [] }
          (expandLayer g st.preds st.layer))

/-- Mutable state shared by `Recurse`. -/
structure St where
  matching : Dict V
  preds : Dict (List V)
  pred : Dict (Option V)
  deriving Repr, DecidableEq

mutual

/-- `Recurse(v)`; the returned `Bool` is its 1/0 result. -/
def recurse : Nat → St → V → Option (Bool × St)
  | 0, _, _ => none
  | fuel + 1, st, v =>
    match dget? st.preds v with
    | none => some (false, st)
    | some L => recurseList fuel { st with preds := derase st.preds v } v L
termination_by fuel _ _ => (fuel, 0)

/-- The `for u in L` loop inside `Recurse(v)`. -/
def recurseList : Nat → St → V → List V → Option (Bool × St)
  | _, st, _, [] => some (false, st)
  | fuel, st, v, u :: us =>
    match dget? st.pred u with
    | none => recurseList fuel st v us
    | some pu =>
      let st1 : St := { st with pred := derase st.pred u }
      match pu with
      | none => some (true, { st1 with matching := dset st1.matching v u })
      | some pv =>
        match recurse fuel st1 pv with
        | none => none
        | some (true, st2) =>
          some (true, { st2 with matching := dset st2.matching v u })
        | some (false, st2) => recurseList fuel st2 v us
termination_by fuel _ _ l => (fuel, l.length + 1)

end

/-- `for v in unmatched: Recurse(v)`. -/
def augmentAll (fuel : Nat) : St → List V → Option St
  | st, [] => some st
  | st, v :: vs =>
    match recurse fuel st v with
    | none => none
    | some (_, st2) => augmentAll fuel st2 vs

/-- The distinct recipients mentioned in the graph (for fuel bounds). -/
def recipients (g : Graph) : List V := ((g.map (·.2)).flatten).dedup

/-- The `unlayered` dict's key list at the return point. -/
def unlayeredOf (g : Graph) (preds : Dict (List V)) : List V :=
  g.foldl
    (fun acc p => p.2.foldl
      (fun acc v =>
        if v ∈ dkeys preds then acc
        else if v ∈ acc then acc else acc ++ [v]) acc) []

/-- Initial layering state of one phase. -/
def layerInit (g : Graph) (m : Dict V) : LayerSt :=
  { preds := [], pred := predInit g m, layer := dkeys (predInit g m),
    unmatched := [] }

/-- The phase loop (`while 1`). -/
def phases (g : Graph) : Nat → Dict V →
    Option (Dict V × List V × List V)
  | 0, _ => none
  | fuel + 1, m =>
    match buildLayers g m ((recipients g).length + 2) (layerInit g m) with
    | none => none
    | some st =>
      if st.unmatched = [] then
        some (m, dkeys st.pred, unlayeredOf g st.preds)
      else
        match augmentAll ((recipients g).length + 2)
            { matching := m, preds := st.preds, pred := st.pred }
            st.unmatched with
        | none => none
        | some st2 => phases g fuel st2.matching

/-- `BipartiteMatch(graph)`: returns `(matching, A, B)`. -/
def bipartiteMatch (g : Graph) : Option (Dict V × List V × List V) :=
  phases g (g.length + 2) (greedyMatching g)

/-! ## Graph Builder facts used by the claims -/

/-- A couple pair one of whose members appears in neither the attendee
list nor the shuffled order never affects the guard of the double loop. -/
theorem bigraphInner_congr (c1 c2 : List (V × V)) (p1 : V) (o : List V)
    (h : ∀ p2 ∈ o,
      (p1 = p2 ∨ (p1, p2) ∈ c1 ∨ (p2, p1) ∈ c1) ↔
      (p1 = p2 ∨ (p1, p2) ∈ c2 ∨ (p2, p1) ∈ c2)) :
    ∀ g, bigraphInner c1 p1 g o = bigraphInner c2 p1 g o := by
  induction o with
  | nil => intro g; rfl
  | cons p2 o ih =>
    intro g
    have hh := h p2 (List.mem_cons_self _ _)
    have htail : ∀ p2 ∈ o,
        (p1 = p2 ∨ (p1, p2) ∈ c1 ∨ (p2, p1) ∈ c1) ↔
        (p1 = p2 ∨ (p1, p2) ∈ c2 ∨ (p2, p1) ∈ c2) :=
      fun q hq => h q (List.mem_cons_of_mem _ hq)
    simp only [bigraphInner, List.foldl_cons]
    by_cases hg : p1 = p2 ∨ (p1, p2) ∈ c1 ∨ (p2, p1) ∈ c1
    · rw [if_pos hg, if_pos (hh.mp hg)]
      exact ih htail g
    · rw [if_neg hg, if_neg (fun hx => hg (hh.mpr hx))]
      exact ih htail (dappend g p1 p2)

theorem createBigraph_ignores_unknown (ps : List V) (c : List (V × V))
    (o : List V) (a b : V)
    (h : (a ∉ ps ∧ a ∉ o) ∨ (b ∉ ps ∧ b ∉ o)) :
    createBigraph ps ((a, b) :: c) o = createBigraph ps c o := by
  suffices H : ∀ (qs : List V) (g : Dict (List V)), (∀ q ∈ qs, q ∈ ps) →
      qs.foldl (fun g p1 => bigraphInner ((a, b) :: c) p1 g o) g =
      qs.foldl (fun g p1 => bigraphInner c p1 g o) g by
    exact H ps [] (fun q hq => hq)
  intro qs
  induction qs with
  | nil => intro g _; rfl
  | cons p1 qs ih =>
    intro g hqs
    simp only [List.foldl_cons]
    rw [bigraphInner_congr ((a, b) :: c) c p1 o ?_ g]
    · exact ih _ (fun q hq => hqs q (List.mem_cons_of_mem _ hq))
    · intro p2 hp2
      constructor
      · rintro (h1 | h1 | h1)
        · exact Or.inl h1
        · rcases List.mem_cons.mp h1 with h2 | h2
          · exfalso
            rcases h with ⟨ha, _⟩ | ⟨_, hb⟩
            · exact ha (by
                have : p1 = a := congrArg Prod.fst h2
                rw [← this]; exact hqs p1 (List.mem_cons_self _ _))
            · exact hb (by
                have : p2 = b := congrArg Prod.snd h2
                rw [← this]; exact hp2)
          · exact Or.inr (Or.inl h2)
        · rcases List.mem_cons.mp h1 with h2 | h2
          · exfalso
            rcases h with ⟨ha, ho⟩ | ⟨hb, _⟩
            · exact ho (by
                have : p2 = a := congrArg Prod.fst h2
                rw [← this]; exact hp2)
            · exact hb (by
                have : p1 = b := congrArg Prod.snd h2
                rw [← this]; exact hqs p1 (List.mem_cons_self _ _))
          · exact Or.inr (Or.inr h2)
      · rintro (h1 | h1 | h1)
        · exact Or.inl h1
        · exact Or.inr (Or.inl (List.mem_cons_of_mem _ h1))
        · exact Or.inr (Or.inr (List.mem_cons_of_mem _ h1))

/-- A single attendee yields an empty candidate graph, with no error. -/
theorem createBigraph_singleton (p : V) (c : List (V × V)) :
    createBigraph [p] c [p] = [] := by
  simp [createBigraph, bigraphInner]

/-- `assert(len(g_attendees) > 1)` at the top of `main` — the only
participant-count check anywhere in the program. -/
def mainAssert (attendees : Dict String) : Bool :=
  decide (1 < attendees.length)

/-! ## Claim theorems for the Graph Builder and Cycle Validator -/

/-- **C3**: in the built graph no participant appears in its own
candidate list, and for every exclusion pair `(a,b)`, `b` is absent from
`a`'s list and `a` from `b`'s.  (The source's `p1 is p2` compares two
aliases of the same interned dict-key object, i.e. value equality.) -/
theorem claim_C3_exclusion_invariant (ps : List V) (c : List (V × V))
    (o : List V) (hnd : ps.Nodup) :
    (∀ p, p ∉ graphAt (createBigraph ps c o) p) ∧
    (∀ a b, (a, b) ∈ c →
      b ∉ graphAt (createBigraph ps c o) a ∧
      a ∉ graphAt (createBigraph ps c o) b) := by
  constructor
  · intro p hp
    exact ((mem_graphAt_createBigraph hnd).mp hp).2.2 (Or.inl rfl)
  · intro a b hab
    constructor
    · intro hmem
      exact ((mem_graphAt_createBigraph hnd).mp hmem).2.2
        (Or.inr (Or.inl hab))
    · intro hmem
      exact ((mem_graphAt_createBigraph hnd).mp hmem).2.2
        (Or.inr (Or.inr hab))

theorem claim_C3_exclusion_invariant_witness :
    "a" ∉ graphAt (createBigraph ["a", "b", "c"] [("a", "b")]
      ["b", "c", "a"]) "a" ∧
    "b" ∉ graphAt (createBigraph ["a", "b", "c"] [("a", "b")]
      ["b", "c", "a"]) "a" ∧
    "a" ∉ graphAt (createBigraph ["a", "b", "c"] [("a", "b")]
      ["b", "c", "a"]) "b" := by
  have h := claim_C3_exclusion_invariant ["a", "b", "c"] [("a", "b")]
    ["b", "c", "a"] (by decide)
  exact ⟨h.1 "a", (h.2 "a" "b" (List.mem_cons_self _ _)).1,
    (h.2 "a" "b" (List.mem_cons_self _ _)).2⟩

/-- **C10**: a participant all of whose potential recipients are excluded
is omitted from the keys of the built graph entirely; in particular for
`{A,B}` with exclusion `(A,B)` (either shuffle) the graph is empty. -/
theorem claim_C10_empty_candidates_omitted :
    (∀ (ps : List V) (c : List (V × V)) (o : List V) (p : V), ps.Nodup →
      (∀ q ∈ o, p = q ∨ (p, q) ∈ c ∨ (q, p) ∈ c) →
      p ∉ dkeys (createBigraph ps c o)) ∧
    createBigraph ["A", "B"] [("A", "B")] ["A", "B"] = [] ∧
    createBigraph ["A", "B"] [("A", "B")] ["B", "A"] = [] := by
  refine ⟨?_, rfl, rfl⟩
  intro ps c o p hnd h hmem
  obtain ⟨hp, q, hq, hg⟩ := (mem_dkeys_createBigraph hnd).mp hmem
  exact hg (h q hq)

theorem claim_C10_empty_candidates_omitted_witness :
    "A" ∉ dkeys (createBigraph ["A", "B"] [("A", "B")] ["A", "B"]) :=
  claim_C10_empty_candidates_omitted.1 ["A", "B"] [("A", "B")] ["A", "B"]
    "A" (by decide) (by decide)

/-- **C7**, counterexample: a single-participant roster makes
`CreateBigraph` return the empty graph — a normal return, no
`ConfigurationError` (the only count check is a bare `assert` in `main`);
and an exclusion pair naming the unknown participant `"X"` is silently
ignored rather than rejected. -/
theorem claim_C7_counterexample :
    createBigraph ["johan"] [] ["johan"] = [] ∧
    mainAssert [("johan", "j@x")] = false ∧
    createBigraph ["A", "B"] [("A", "X")] ["A", "B"] =
      [("A", ["B"]), ("B", ["A"])] :=
  ⟨rfl, rfl, rfl⟩

/-- **C7**, amended: the Graph Builder itself never fails.  An exclusion
pair one of whose members appears in neither the roster nor the shuffled
order has no effect at all; a single-participant roster yields the empty
graph; the fewer-than-2-participants guard is `main`'s
`assert(len(g_attendees) > 1)`, not a Graph Builder error. -/
theorem claim_C7_amended (ps : List V) (c : List (V × V)) (o : List V)
    (a b : V) (h : (a ∉ ps ∧ a ∉ o) ∨ (b ∉ ps ∧ b ∉ o)) :
    createBigraph ps ((a, b) :: c) o = createBigraph ps c o ∧
    (∀ (p : V) (c2 : List (V × V)), createBigraph [p] c2 [p] = []) ∧
    (∀ att : Dict String, mainAssert att = true ↔ 1 < att.length) := by
  refine ⟨createBigraph_ignores_unknown ps c o a b h, ?_, ?_⟩
  · intro p c2; exact createBigraph_singleton p c2
  · intro att; simp [mainAssert]

theorem claim_C7_amended_witness :
    createBigraph ["A", "B"] [("A", "X"), ("B", "A")] ["A", "B"] =
      createBigraph ["A", "B"] [("B", "A")] ["A", "B"] ∧
    createBigraph ["A"] [("B", "A")] ["A"] = [] ∧
    (mainAssert [("A", "a@x")] = true ↔
      1 < ([("A", "a@x")] : Dict String).length) := by
  have h := claim_C7_amended ["A", "B"] [("B", "A")] ["A", "B"] "A" "X"
    (Or.inr (by decide))
  exact ⟨h.1, h.2.1 "A" [("B", "A")], h.2.2 [("A", "a@x")]⟩

/-- **C2**, counterexample: for participants `{A,B}` with exclusion pair
`(A,B)` the engine returns the empty matching, and the validator then
returns normally (reporting no cycles) — it raises nothing at all; there
is no `IncompleteMatchingError` anywhere in the program. -/
theorem claim_C2_counterexample :
    bipartiteMatch (createBigraph ["A", "B"] [("A", "B")] ["A", "B"]) =
      some ([], [], []) ∧
    bipartiteMatch (createBigraph ["A", "B"] [("A", "B")] ["B", "A"]) =
      some ([], [], []) ∧
    makeSureEverybodyHasGift [] = some [] :=
  ⟨rfl, rfl, makeSure_nil⟩

/-- **C2**, amended: on a matching that misses a participant's entry the
validator dies with an uncaught `KeyError` from `attendees.pop` (an
unhandled lookup failure) as soon as a chain lookup misses, and on the
empty matching (the `{A,B}` exclusion scenario) it returns normally
without reporting anything; no `IncompleteMatchingError` exists. -/
theorem claim_C2_amended (root a0 : V) (rest : Dict V) (hne : a0 ≠ root)
    (hmiss : a0 ∉ dkeys ((root, a0) :: rest)) :
    makeSureEverybodyHasGift ((root, a0) :: rest) = none ∧
    makeSureEverybodyHasGift [] = some [] ∧
    bipartiteMatch (createBigraph ["A", "B"] [("A", "B")] ["A", "B"]) =
      some ([], [], []) := by
  refine ⟨?_, makeSure_nil, rfl⟩
  rw [makeSure_cons, walk_step _ _ _ _ hne,
    dget?_eq_none_iff.mpr hmiss]

theorem claim_C2_amended_witness :
    makeSureEverybodyHasGift [("A", "B")] = none :=
  (claim_C2_amended "A" "B" [] (by decide) (by decide)).1

/-- **C8**: the Matching Engine is a pure function of the graph — two
runs on the same graph return the same result, in particular matchings
of the same size and the same exact pairing.  (The source uses no
randomness inside `BipartiteMatch`, and CPython dict iteration order is
a function of the dict's contents.) -/
theorem claim_C8_deterministic (g : Graph)
    (r1 r2 : Option (Dict V × List V × List V))
    (h1 : bipartiteMatch g = r1) (h2 : bipartiteMatch g = r2) :
    r1 = r2 ∧
    (∀ m1 x1 m2 x2, r1 = some (m1, x1) → r2 = some (m2, x2) →
      m1.length = m2.length ∧ m1 = m2) := by
  have hr : r1 = r2 := by rw [← h1, ← h2]
  subst hr
  refine ⟨rfl, ?_⟩
  intro m1 x1 m2 x2 e1 e2
  rw [e1] at e2
  obtain ⟨h3, h4⟩ := Prod.mk.injEq _ _ _ _ ▸ Option.some_inj.mp e2
  exact ⟨by rw [h3], h3⟩

theorem claim_C8_deterministic_witness :
    (some ([("v", "u")], [], ["v"]) :
      Option (Dict V × List V × List V)) =
      some ([("v", "u")], [], ["v"]) :=
  (claim_C8_deterministic [("u", ["v"])] (some ([("v", "u")], [], ["v"]))
    (some ([("v", "u")], [], ["v"])) rfl rfl).1

/-! ## Further dictionary lemmas for the engine proofs -/

theorem entry_eq_of_nodup_dkeys {β : Type} {d : Dict β}
    (h : (dkeys d).Nodup) {p q : V × β} (hp : p ∈ d) (hq : q ∈ d)
    (hpq : p.1 = q.1) : p = q :=
  List.inj_on_of_nodup_map h hp hq hpq

theorem mem_dset_of_nodup {β : Type} {d : Dict β} {x : V} {b : β}
    (hnd : (dkeys d).Nodup) {p : V × β} (hp : p ∈ dset d x b) :
    p = (x, b) ∨ (p ∈ d ∧ p.1 ≠ x) := by
  induction d with
  | nil =>
    simp only [dset, List.mem_singleton] at hp
    exact Or.inl hp
  | cons q d ih =>
    obtain ⟨k, c⟩ := q
    simp only [dkeys_cons, List.nodup_cons] at hnd
    by_cases hk : k = x
    · subst hk
      rw [show dset ((k, c) :: d) k b = (k, b) :: d by simp [dset]] at hp
      rcases List.mem_cons.mp hp with hp1 | hp1
      · exact Or.inl hp1
      · refine Or.inr ⟨List.mem_cons_of_mem _ hp1, fun he => ?_⟩
        exact hnd.1 (List.mem_map.mpr ⟨p, hp1, he⟩)
    · rw [show dset ((k, c) :: d) x b = (k, c) :: dset d x b by
        simp [dset, hk]] at hp
      rcases List.mem_cons.mp hp with hp1 | hp1
      · subst hp1
        exact Or.inr ⟨List.mem_cons_self _ _, hk⟩
      · rcases ih hnd.2 hp1 with hh | hh
        · exact Or.inl hh
        · exact Or.inr ⟨List.mem_cons_of_mem _ hh.1, hh.2⟩

theorem nodup_entries_of_nodup_dkeys {β : Type} {d : Dict β}
    (h : (dkeys d).Nodup) : d.Nodup :=
  List.Nodup.of_map _ h

theorem length_le_of_entry_subset {β : Type} {d1 d2 : Dict β}
    (h1 : (dkeys d1).Nodup) (hsub : ∀ p ∈ d1, p ∈ d2) :
    d1.length ≤ d2.length :=
  (List.subperm_of_subset (nodup_entries_of_nodup_dkeys h1) hsub).length_le

theorem length_le_of_nodup_subset {l1 l2 : List V}
    (h1 : l1.Nodup) (hsub : ∀ x ∈ l1, x ∈ l2) : l1.length ≤ l2.length :=
  (List.subperm_of_subset h1 hsub).length_le

theorem length_dkeys {β : Type} (d : Dict β) : (dkeys d).length = d.length :=
  List.length_map d _

/-- The key of the first entry holding value `u` (used to name a matched
giver's recipient in the counting argument). -/
def mkeyOf (m : Dict V) (u : V) : Option V :=
  (m.find? (fun p => p.2 == u)).map (·.1)

theorem mkeyOf_spec {m : Dict V} {u : V} (h : u ∈ dvalues m) :
    ∃ v, mkeyOf m u = some v ∧ (v, u) ∈ m := by
  induction m with
  | nil => simp at h
  | cons p m ih =>
    obtain ⟨k, b⟩ := p
    by_cases hb : b = u
    · subst hb
      refine ⟨k, ?_, List.mem_cons_self _ _⟩
      simp [mkeyOf, List.find?]
    · simp only [dvalues_cons, List.mem_cons] at h
      rcases h with rfl | h
      · exact absurd rfl hb
      · obtain ⟨v, hv1, hv2⟩ := ih h
        refine ⟨v, ?_, List.mem_cons_of_mem _ hv2⟩
        have hbe : (b == u) = false := by simp [hb]
        simpa [mkeyOf, List.find?, hbe] using hv1

theorem mem_recipients {g : Graph} {u v : V}
    (h : v ∈ graphAt g u) : v ∈ recipients g := by
  rw [recipients, List.mem_dedup]
  rcases hg : dget? g u with _ | L
  · rw [graphAt, hg] at h; simp at h
  · rw [graphAt, hg] at h
    simp only [Option.getD_some] at h
    exact List.mem_flatten.mpr ⟨L, List.mem_map.mpr
      ⟨(u, L), mem_of_dget? hg, rfl⟩, h⟩

theorem nodup_recipients (g : Graph) : (recipients g).Nodup :=
  List.nodup_dedup _

theorem mem_dkeys_of_graphAt_ne {g : Graph} {u v : V}
    (h : v ∈ graphAt g u) : u ∈ dkeys g := by
  rcases hg : dget? g u with _ | L
  · rw [graphAt, hg] at h; simp at h
  · exact mem_dkeys_of_dget? hg

/-! ## Unfolding equations for `recurse`/`recurseList` -/

theorem recurse_zero (st : St) (v : V) : recurse 0 st v = none := by
  rw [recurse]

theorem recurse_succ (f : Nat) (st : St) (v : V) :
    recurse (f + 1) st v =
      match dget? st.preds v with
      | none => some (false, st)
      | some L =>
        recurseList f { st with preds := derase st.preds v } v L := by
  rw [recurse]

theorem recurseList_nil (f : Nat) (st : St) (v : V) :
    recurseList f st v [] = some (false, st) := by
  rw [recurseList]

theorem recurseList_cons (f : Nat) (st : St) (v u : V) (us : List V) :
    recurseList f st v (u :: us) =
      match dget? st.pred u with
      | none => recurseList f st v us
      | some pu =>
        let st1 : St := { st with pred := derase st.pred u }
        match pu with
        | none => some (true, { st1 with matching := dset st1.matching v u })
        | some pv =>
          match recurse f st1 pv with
          | none => none
          | some (true, st2) =>
            some (true, { st2 with matching := dset st2.matching v u })
          | some (false, st2) => recurseList f st2 v us := by
  rw [recurseList]

/-- `Recurse` only ever deletes from `preds`/`pred` (and touches nothing
else in them): every surviving entry was already present. -/
theorem recurse_structural : ∀ f : Nat,
    (∀ (st : St) (v : V) (r : Bool × St), recurse f st v = some r →
      (∀ p ∈ r.2.preds, p ∈ st.preds) ∧ (∀ p ∈ r.2.pred, p ∈ st.pred) ∧
      r.2.preds.length ≤ st.preds.length) ∧
    (∀ (st : St) (v : V) (l : List V) (r : Bool × St),
      recurseList f st v l = some r →
      (∀ p ∈ r.2.preds, p ∈ st.preds) ∧ (∀ p ∈ r.2.pred, p ∈ st.pred) ∧
      r.2.preds.length ≤ st.preds.length) := by
  intro f
  induction f with
  | zero =>
    constructor
    · intro st v r h
      rw [recurse_zero] at h
      exact absurd h (by simp)
    · intro st v l
      induction l generalizing st with
      | nil =>
        intro r h
        rw [recurseList_nil] at h
        obtain rfl := Option.some_inj.mp h
        exact ⟨fun p hp => hp, fun p hp => hp, Nat.le_refl _⟩
      | cons u us ihl =>
        intro r h
        rw [recurseList_cons] at h
        rcases hpu : dget? st.pred u with _ | pu
        · rw [hpu] at h
          exact ihl st r h
        · rcases pu with _ | pv
          · simp only [hpu] at h
            obtain rfl := Option.some_inj.mp h
            exact ⟨fun p hp => hp,
              fun p hp => (mem_derase.mp hp).1, Nat.le_refl _⟩
          · simp only [hpu, recurse_zero] at h
            exact absurd h (by simp)
  | succ f ih =>
    have h1 : ∀ (st : St) (v : V) (r : Bool × St),
        recurse (f + 1) st v = some r →
        (∀ p ∈ r.2.preds, p ∈ st.preds) ∧ (∀ p ∈ r.2.pred, p ∈ st.pred) ∧
        r.2.preds.length ≤ st.preds.length := by
      intro st v r h
      rw [recurse_succ] at h
      rcases hL : dget? st.preds v with _ | L
      · rw [hL] at h
        obtain rfl := Option.some_inj.mp h
        exact ⟨fun p hp => hp, fun p hp => hp, Nat.le_refl _⟩
      · rw [hL] at h
        obtain ⟨hs1, hs2, hs3⟩ := ih.2 _ v L r h
        refine ⟨fun p hp => (mem_derase.mp (hs1 p hp)).1, hs2, ?_⟩
        exact hs3.trans (length_derase_le _ _)
    refine ⟨h1, ?_⟩
    intro st v l
    induction l generalizing st with
    | nil =>
      intro r h
      rw [recurseList_nil] at h
      obtain rfl := Option.some_inj.mp h
      exact ⟨fun p hp => hp, fun p hp => hp, Nat.le_refl _⟩
    | cons u us ihl =>
      intro r h
      rw [recurseList_cons] at h
      rcases hpu : dget? st.pred u with _ | pu
      · rw [hpu] at h
        exact ihl st r h
      · rcases pu with _ | pv
        · simp only [hpu] at h
          obtain rfl := Option.some_inj.mp h
          exact ⟨fun p hp => hp,
            fun p hp => (mem_derase.mp hp).1, Nat.le_refl _⟩
        · simp only [hpu] at h
          rcases hrec : recurse (f + 1)
              { st with pred := derase st.pred u } pv with _ | okst2
          · rw [hrec] at h
            exact absurd h (by simp)
          · rw [hrec] at h
            obtain ⟨ok, st2⟩ := okst2
            obtain ⟨hr1, hr2, hr3⟩ := h1 _ pv (ok, st2) hrec
            rcases ok with _ | _
            · obtain ⟨hl1, hl2, hl3⟩ := ihl st2 r h
              exact ⟨fun p hp => hr1 p (hl1 p hp),
                fun p hp => (mem_derase.mp (hr2 p (hl2 p hp))).1,
                hl3.trans hr3⟩
            · obtain rfl := Option.some_inj.mp h
              exact ⟨hr1, fun p hp => (mem_derase.mp (hr2 p hp)).1, hr3⟩

/-- With fuel exceeding the number of `preds` entries, `Recurse` cannot
run out (it deletes a `preds` entry at every nesting level). -/
theorem recurse_enough_fuel : ∀ f : Nat,
    (∀ (st : St) (v : V), st.preds.length < f →
      (recurse f st v).isSome = true) ∧
    (∀ (st : St) (v : V) (l : List V), st.preds.length < f →
      (recurseList f st v l).isSome = true) := by
  intro f
  induction f with
  | zero =>
    exact ⟨fun st v h => absurd h (by omega),
      fun st v l h => absurd h (by omega)⟩
  | succ f ih =>
    have h1 : ∀ (st : St) (v : V), st.preds.length < f + 1 →
        (recurse (f + 1) st v).isSome = true := by
      intro st v hf
      rw [recurse_succ]
      rcases hL : dget? st.preds v with _ | L
      · simp [hL]
      · simp only [hL]
        have hlt : (derase st.preds v).length < st.preds.length :=
          length_derase_lt (mem_dkeys_of_dget? hL)
        exact ih.2 _ v L (show (derase st.preds v).length < f by omega)
    refine ⟨h1, ?_⟩
    intro st v l
    induction l generalizing st with
    | nil =>
      intro hf
      rw [recurseList_nil]
      simp
    | cons u us ihl =>
      intro hf
      rw [recurseList_cons]
      rcases hpu : dget? st.pred u with _ | pu
      · simp only [hpu]
        exact ihl st hf
      · simp only [hpu]
        rcases pu with _ | pv
        · simp
        · rcases hrec : recurse (f + 1)
              { st with pred := derase st.pred u } pv with _ | okst2
          · have := h1 { st with pred := derase st.pred u } pv hf
            rw [hrec] at this
            simp at this
          · simp only [hrec]
            obtain ⟨ok, st2⟩ := okst2
            rcases ok with _ | _
            · have hle : st2.preds.length ≤ st.preds.length :=
                ((recurse_structural (f + 1)).1 _ pv (false, st2) hrec).2.2
              exact ihl st2 (by omega)
            · simp

/-- The matching invariant: recipient keys distinct (a function), givers
distinct (injective), and every pair an edge of the graph. -/
def IsMatching (g : Graph) (m : Dict V) : Prop :=
  (dkeys m).Nodup ∧ (dvalues m).Nodup ∧ ∀ p ∈ m, p.1 ∈ graphAt g p.2

theorem greedyRow_spec (m : Dict V) (u : V) (l : List V) :
    greedyRow m u l = m ∨
    ∃ v, v ∈ l ∧ v ∉ dkeys m ∧ greedyRow m u l = dset m v u := by
  induction l with
  | nil => exact Or.inl rfl
  | cons v vs ih =>
    by_cases hv : v ∈ dkeys m
    · rw [show greedyRow m u (v :: vs) = greedyRow m u vs by
        simp [greedyRow, hv]]
      rcases ih with h | ⟨v2, h1, h2, h3⟩
      · exact Or.inl h
      · exact Or.inr ⟨v2, List.mem_cons_of_mem _ h1, h2, h3⟩
    · rw [show greedyRow m u (v :: vs) = dset m v u by simp [greedyRow, hv]]
      exact Or.inr ⟨v, List.mem_cons_self _ _, hv, rfl⟩

theorem greedyFold_spec (g : Graph) : ∀ (gs : List (V × List V))
    (acc : Dict V),
    (dkeys acc).Nodup → (dvalues acc).Nodup →
    (∀ p ∈ acc, p.1 ∈ graphAt g p.2) →
    (∀ p ∈ gs, p.2 = graphAt g p.1) →
    (∀ p ∈ gs, p.1 ∉ dvalues acc) →
    (gs.map (·.1)).Nodup →
    IsMatching g (gs.foldl (fun m p => greedyRow m p.1 p.2) acc) ∧
    (∀ x ∈ dvalues (gs.foldl (fun m p => greedyRow m p.1 p.2) acc),
      x ∈ dvalues acc ∨ x ∈ gs.map (·.1)) := by
  intro gs
  induction gs with
  | nil =>
    intro acc h1 h2 h3 _ _ _
    exact ⟨⟨h1, h2, h3⟩, fun x hx => Or.inl hx⟩
  | cons q gs ih =>
    obtain ⟨u, vs⟩ := q
    intro acc h1 h2 h3 hrows hfresh hknd
    simp only [List.map_cons, List.nodup_cons] at hknd
    have hufresh : u ∉ dvalues acc :=
      hfresh (u, vs) (List.mem_cons_self _ _)
    have hrow : vs = graphAt g u := hrows (u, vs) (List.mem_cons_self _ _)
    simp only [List.foldl_cons]
    rcases greedyRow_spec acc u vs with hg | ⟨v, hv1, hv2, hg⟩
    · rw [hg]
      refine ih acc h1 h2 h3
        (fun p hp => hrows p (List.mem_cons_of_mem _ hp))
        (fun p hp => hfresh p (List.mem_cons_of_mem _ hp)) hknd.2 |>.imp
        id (fun hval x hx => ?_)
      rcases hval x hx with hx2 | hx2
      · exact Or.inl hx2
      · exact Or.inr (List.mem_cons_of_mem _ hx2)
    · rw [hg]
      have hk1 : (dkeys (dset acc v u)).Nodup := nodup_dkeys_dset h1
      have hv1' : (dvalues (dset acc v u)).Nodup :=
        nodup_dvalues_dset h2 hufresh
      have he1 : ∀ p ∈ dset acc v u, p.1 ∈ graphAt g p.2 := by
        intro p hp
        rcases mem_dset_of_nodup h1 hp with rfl | ⟨hp1, _⟩
        · rw [← hrow]; exact hv1
        · exact h3 p hp1
      have hvals : ∀ x ∈ dvalues (dset acc v u),
          x ∈ dvalues acc ∨ x = u := by
        intro x hx
        rcases mem_dvalues_dset hx with rfl | hx
        · exact Or.inr rfl
        · exact Or.inl hx
      refine (ih (dset acc v u) hk1 hv1' he1
        (fun p hp => hrows p (List.mem_cons_of_mem _ hp))
        (fun p hp hmem => ?_) hknd.2).imp id (fun hval x hx => ?_)
      · rcases hvals p.1 hmem with hmem2 | hmem2
        · exact hfresh p (List.mem_cons_of_mem _ hp) hmem2
        · exact hknd.1 (by rw [← hmem2]; exact List.mem_map.mpr ⟨p, hp, rfl⟩)
      · rcases hval x hx with hx2 | hx2
        · rcases hvals x hx2 with hx3 | hx3
          · exact Or.inl hx3
          · exact Or.inr (by rw [hx3]; exact List.mem_cons_self _ _)
        · exact Or.inr (List.mem_cons_of_mem _ hx2)

/-- The greedy seed is a valid partial matching. -/
theorem greedy_isMatching (g : Graph) (hnd : (dkeys g).Nodup) :
    IsMatching g (greedyMatching g) := by
  refine (greedyFold_spec g g [] List.nodup_nil List.nodup_nil
    (by simp) (fun p hp => ?_) (by simp) hnd).1
  rw [graphAt, dget?_of_mem hnd hp]
  rfl

/-! ## Phase initialisation: `pred` and `layer` -/

theorem dget?_map_none (g : Graph) (u : V) :
    dget? (g.map (fun p => (p.1, (none : Option V)))) u =
      if u ∈ dkeys g then some none else none := by
  induction g with
  | nil => simp
  | cons p g ih =>
    obtain ⟨k, L⟩ := p
    by_cases hk : u = k
    · subst hk; simp [dget?_cons]
    · simp [dget?_cons, hk, ih]

theorem dget?_erase_fold (es : List (V × V)) :
    ∀ (pr : Dict (Option V)) (u : V),
    dget? (es.foldl (fun pr p => derase pr p.2) pr) u =
      if u ∈ es.map (·.2) then none else dget? pr u := by
  induction es with
  | nil => intro pr u; simp
  | cons e es ih =>
    intro pr u
    simp only [List.foldl_cons, List.map_cons]
    rw [ih]
    by_cases he : u = e.2
    · rw [he]
      by_cases hm : e.2 ∈ es.map (·.2)
      · simp [hm]
      · simp [hm, dget?_derase_self]
    · by_cases hm : u ∈ es.map (·.2)
      · simp [hm, he]
      · simp [hm, he, dget?_derase_ne pr e.2 u he]

/-- `pred` after initialisation: exactly the unmatched givers, all
flagged `none`. -/
theorem dget?_predInit (g : Graph) (m : Dict V) (u : V) :
    dget? (predInit g m) u =
      if u ∈ dkeys g ∧ u ∉ dvalues m then some none else none := by
  rw [predInit, dget?_erase_fold, dget?_map_none]
  by_cases h1 : u ∈ dvalues m
  · have h1' : u ∈ m.map (·.2) := h1
    rw [if_pos h1', if_neg (by rintro ⟨_, hh⟩; exact hh h1)]
  · have h1' : u ∉ m.map (·.2) := h1
    rw [if_neg h1']
    by_cases h2 : u ∈ dkeys g
    · rw [if_pos h2, if_pos ⟨h2, h1⟩]
    · rw [if_neg h2, if_neg (by rintro ⟨hh, _⟩; exact h2 hh)]

theorem nodup_dkeys_predInit (g : Graph) (m : Dict V)
    (hnd : (dkeys g).Nodup) : (dkeys (predInit g m)).Nodup := by
  rw [predInit]
  have hbase : (dkeys (g.map (fun p => (p.1, (none : Option V))))).Nodup := by
    have : dkeys (g.map (fun p => (p.1, (none : Option V)))) = dkeys g := by
      simp [dkeys, List.map_map]
    rw [this]; exact hnd
  generalize g.map (fun p => (p.1, (none : Option V))) = pr at hbase
  induction m generalizing pr with
  | nil => exact hbase
  | cons e es ih =>
    simp only [List.foldl_cons]
    exact ih _ (nodup_dkeys_derase _ hbase)

/-! ## The BFS layering: `new_layer` construction and merge -/

/-- Invariant of a partially built `new_layer` dict. -/
def NLInv (g : Graph) (preds : Dict (List V)) (layer : List V)
    (nl : Dict (List V)) : Prop :=
  (dkeys nl).Nodup ∧ (∀ p ∈ nl, p.2 ≠ []) ∧
  (∀ p ∈ nl, p.1 ∉ dkeys preds) ∧
  (∀ p ∈ nl, ∀ w ∈ p.2, w ∈ layer ∧ p.1 ∈ graphAt g w)

theorem expandRow_inv (g : Graph) (preds : Dict (List V)) (layer : List V)
    (u : V) (hu : u ∈ layer) : ∀ (l : List V) (nl : Dict (List V)),
    (∀ v ∈ l, v ∈ graphAt g u) → NLInv g preds layer nl →
    NLInv g preds layer
      (l.foldl (fun nl v =>
        if v ∈ dkeys preds then nl else dappend nl v u) nl) ∧
    (∀ x ∈ dkeys nl, x ∈ dkeys
      (l.foldl (fun nl v =>
        if v ∈ dkeys preds then nl else dappend nl v u) nl)) ∧
    (∀ v ∈ l, v ∈ dkeys preds ∨ v ∈ dkeys
      (l.foldl (fun nl v =>
        if v ∈ dkeys preds then nl else dappend nl v u) nl)) := by
  intro l
  induction l with
  | nil =>
    intro nl _ hinv
    exact ⟨hinv, fun x hx => hx, by simp⟩
  | cons v vs ih =>
    intro nl hsub hinv
    simp only [List.foldl_cons]
    by_cases hv : v ∈ dkeys preds
    · rw [if_pos hv]
      obtain ⟨hi1, hi2, hi3⟩ := ih nl
        (fun w hw => hsub w (List.mem_cons_of_mem _ hw)) hinv
      refine ⟨hi1, hi2, ?_⟩
      intro w hw
      rcases List.mem_cons.mp hw with rfl | hw
      · exact Or.inl hv
      · exact hi3 w hw
    · rw [if_neg hv]
      have hinv' : NLInv g preds layer (dappend nl v u) := by
        obtain ⟨n1, n2, n3, n4⟩ := hinv
        refine ⟨nodup_dkeys_dappend n1, dappend_list_ne_nil n2, ?_, ?_⟩
        · intro p hp
          by_cases hpv : p.1 = v
          · rw [hpv]; exact hv
          · rcases hpw : p.2 with _ | ⟨w, ws⟩
            · -- list empty: impossible after dappend? entries may be old
              -- ones; handle via key membership instead
              have hk : p.1 ∈ dkeys (dappend nl v u) :=
                List.mem_map.mpr ⟨p, hp, rfl⟩
              rcases mem_dkeys_dappend.mp hk with hk | hk
              · -- the key was already in nl; use its old entry
                obtain ⟨q, hq, hq1⟩ := List.mem_map.mp hk
                exact hq1 ▸ n3 q hq
              · exact absurd hk hpv
            · have hk : p.1 ∈ dkeys (dappend nl v u) :=
                List.mem_map.mpr ⟨p, hp, rfl⟩
              rcases mem_dkeys_dappend.mp hk with hk | hk
              · obtain ⟨q, hq, hq1⟩ := List.mem_map.mp hk
                exact hq1 ▸ n3 q hq
              · exact absurd hk hpv
        · intro p hp w hw
          rcases dappend_list_mem hp hw with ⟨L, hL, hwL⟩ | ⟨hp1, hwu⟩
          · exact n4 (p.1, L) hL w hwL
          · subst hwu
            exact ⟨hu, hp1 ▸ hsub v (List.mem_cons_self _ _)⟩
      obtain ⟨hi1, hi2, hi3⟩ := ih (dappend nl v u)
        (fun w hw => hsub w (List.mem_cons_of_mem _ hw)) hinv'
      refine ⟨hi1, ?_, ?_⟩
      · intro x hx
        exact hi2 x (mem_dkeys_dappend.mpr (Or.inl hx))
      · intro w hw
        rcases List.mem_cons.mp hw with rfl | hw
        · exact Or.inr (hi2 w (mem_dkeys_dappend.mpr (Or.inr rfl)))
        · exact hi3 w hw

theorem expandLayer_inv (g : Graph) (preds : Dict (List V))
    (layer : List V) : ∀ (ls : List V) (nl : Dict (List V)),
    (∀ u ∈ ls, u ∈ layer) → NLInv g preds layer nl →
    NLInv g preds layer (ls.foldl (fun nl u => expandRow g preds nl u) nl) ∧
    (∀ x ∈ dkeys nl, x ∈ dkeys
      (ls.foldl (fun nl u => expandRow g preds nl u) nl)) ∧
    (∀ u ∈ ls, ∀ v ∈ graphAt g u, v ∈ dkeys preds ∨ v ∈ dkeys
      (ls.foldl (fun nl u => expandRow g preds nl u) nl)) := by
  intro ls
  induction ls with
  | nil =>
    intro nl _ hinv
    exact ⟨hinv, fun x hx => hx, by simp⟩
  | cons u us ih =>
    intro nl hsub hinv
    simp only [List.foldl_cons]
    obtain ⟨hr1, hr2, hr3⟩ := expandRow_inv g preds layer u
      (hsub u (List.mem_cons_self _ _)) (graphAt g u) nl
      (fun v hv => hv) hinv
    obtain ⟨hi1, hi2, hi3⟩ := ih (expandRow g preds nl u)
      (fun w hw => hsub w (List.mem_cons_of_mem _ hw)) hr1
    refine ⟨hi1, ?_, ?_⟩
    · intro x hx
      exact hi2 x (hr2 x hx)
    · intro w hw v hv
      rcases List.mem_cons.mp hw with rfl | hw
      · rcases hr3 v hv with h | h
        · exact Or.inl h
        · exact Or.inr (hi2 v h)
      · exact hi3 w hw v hv

/-- The facts established by `expandLayer`. -/
theorem expandLayer_spec (g : Graph) (preds : Dict (List V))
    (layer : List V) :
    NLInv g preds layer (expandLayer g preds layer) ∧
    (∀ u ∈ layer, ∀ v ∈ graphAt g u,
      v ∈ dkeys preds ∨ v ∈ dkeys (expandLayer g preds layer)) := by
  obtain ⟨h1, _, h3⟩ := expandLayer_inv g preds layer layer []
    (fun u hu => hu) ⟨List.nodup_nil, by simp, by simp, by simp⟩
  exact ⟨h1, h3⟩

theorem mergeLayer_cons (m : Dict V) (st : LayerSt) (v0 : V)
    (L0 : List V) (nl : Dict (List V)) :
    mergeLayer m st ((v0, L0) :: nl) =
      mergeLayer m (mergeEntry m st (v0, L0)) nl := rfl

theorem mergeEntry_matched {m : Dict V} {v0 u0 : V} (st : LayerSt)
    (L0 : List V) (hm0 : dget? m v0 = some u0) :
    mergeEntry m st (v0, L0) =
      { st with preds := dset st.preds v0 L0,
                pred := dset st.pred u0 (some v0),
                layer := st.layer ++ [u0] } := by
  simp [mergeEntry, hm0]

theorem mergeEntry_unmatched {m : Dict V} {v0 : V} (st : LayerSt)
    (L0 : List V) (hm0 : dget? m v0 = none) :
    mergeEntry m st (v0, L0) =
      { st with preds := dset st.preds v0 L0,
                unmatched := st.unmatched ++ [v0] } := by
  simp [mergeEntry, hm0]

theorem mergeLayer_preds_get (m : Dict V) : ∀ (nl : Dict (List V))
    (st : LayerSt) (x : V), (dkeys nl).Nodup →
    dget? (mergeLayer m st nl).preds x =
      match dget? nl x with
      | some L => some L
      | none => dget? st.preds x := by
  intro nl
  induction nl with
  | nil => intro st x _; rfl
  | cons q nl ih =>
    obtain ⟨v0, L0⟩ := q
    intro st x hnd
    simp only [dkeys_cons, List.nodup_cons] at hnd
    rw [mergeLayer_cons, ih _ x hnd.2, dget?_cons]
    have hpreds : (mergeEntry m st (v0, L0)).preds = dset st.preds v0 L0 := by
      rcases hm0 : dget? m v0 with _ | u0
      · rw [mergeEntry_unmatched st L0 hm0]
      · rw [mergeEntry_matched st L0 hm0]
    by_cases hx : x = v0
    · subst hx
      rw [if_pos rfl, dget?_eq_none_iff.mpr (by simpa using hnd.1),
        hpreds, dget?_dset_self]
    · rw [if_neg hx]
      rcases dget? nl x with _ | L
      · rw [hpreds, dget?_dset_ne _ _ _ _ hx]
      · rfl

theorem mergeLayer_pred_unchanged (m : Dict V) : ∀ (nl : Dict (List V))
    (st : LayerSt) (x : V),
    (∀ p ∈ nl, ∀ u, dget? m p.1 = some u → x ≠ u) →
    dget? (mergeLayer m st nl).pred x = dget? st.pred x := by
  intro nl
  induction nl with
  | nil => intro st x _; rfl
  | cons q nl ih =>
    obtain ⟨v0, L0⟩ := q
    intro st x havoid
    rw [mergeLayer_cons,
      ih _ x (fun p hp u hu => havoid p (List.mem_cons_of_mem _ hp) u hu)]
    rcases hm0 : dget? m v0 with _ | u0
    · rw [mergeEntry_unmatched st L0 hm0]
    · rw [mergeEntry_matched st L0 hm0]
      exact dget?_dset_ne _ _ _ _
        (havoid (v0, L0) (List.mem_cons_self _ _) u0 hm0)

theorem mergeLayer_pred_matched (m : Dict V)
    (hmv : (dvalues m).Nodup) : ∀ (nl : Dict (List V))
    (st : LayerSt), (dkeys nl).Nodup →
    ∀ p ∈ nl, ∀ u, dget? m p.1 = some u →
    dget? (mergeLayer m st nl).pred u = some (some p.1) := by
  intro nl
  induction nl with
  | nil => intro st _ p hp; simp at hp
  | cons q nl ih =>
    obtain ⟨v0, L0⟩ := q
    intro st hnd p hp u hu
    simp only [dkeys_cons, List.nodup_cons] at hnd
    rw [mergeLayer_cons]
    rcases List.mem_cons.mp hp with rfl | hp
    · -- the head entry: insert now, untouched afterwards
      simp only at hu
      have havoid : ∀ q2 ∈ nl, ∀ u2, dget? m q2.1 = some u2 → u ≠ u2 := by
        intro q2 hq2 u2 hu2 he
        subst he
        have h1 : (v0, u) ∈ m := mem_of_dget? hu
        have h2 : (q2.1, u) ∈ m := mem_of_dget? hu2
        have := entry_eq_of_nodup_dvalues hmv h1 h2 rfl
        have hv0 : v0 = q2.1 := congrArg Prod.fst this
        exact hnd.1 (hv0 ▸ List.mem_map.mpr ⟨q2, hq2, rfl⟩)
      rw [mergeLayer_pred_unchanged m nl _ u havoid,
        mergeEntry_matched st L0 hu]
      exact dget?_dset_self _ _ _
    · exact ih _ hnd.2 p hp u hu

theorem mergeLayer_layer_mem (m : Dict V) : ∀ (nl : Dict (List V))
    (st : LayerSt) (u : V),
    u ∈ (mergeLayer m st nl).layer ↔
      u ∈ st.layer ∨ ∃ v, v ∈ dkeys nl ∧ dget? m v = some u := by
  intro nl
  induction nl with
  | nil => intro st u; simp [mergeLayer]
  | cons q nl ih =>
    obtain ⟨v0, L0⟩ := q
    intro st u
    rw [mergeLayer_cons, ih]
    rcases hm0 : dget? m v0 with _ | u0
    · rw [mergeEntry_unmatched st L0 hm0]
      simp only [dkeys_cons, List.mem_cons]
      constructor
      · rintro (h | ⟨v, hv, hmv2⟩)
        · exact Or.inl h
        · exact Or.inr ⟨v, Or.inr hv, hmv2⟩
      · rintro (h | ⟨v, rfl | hv, hmv2⟩)
        · exact Or.inl h
        · rw [hm0] at hmv2; exact absurd hmv2 (by simp)
        · exact Or.inr ⟨v, hv, hmv2⟩
    · rw [mergeEntry_matched st L0 hm0]
      simp only [dkeys_cons, List.mem_cons, List.mem_append,
        List.mem_singleton]
      constructor
      · rintro ((h | hu0) | ⟨v, hv, hmv2⟩)
        · exact Or.inl h
        · rcases hu0 with rfl | h0
          · exact Or.inr ⟨v0, Or.inl rfl, hm0⟩
          · simp at h0
        · exact Or.inr ⟨v, Or.inr hv, hmv2⟩
      · rintro (h | ⟨v, rfl | hv, hmv2⟩)
        · exact Or.inl (Or.inl h)
        · rw [hm0] at hmv2
          exact Or.inl (Or.inr (Or.inl (Option.some_inj.mp hmv2).symm))
        · exact Or.inr ⟨v, hv, hmv2⟩

theorem mergeLayer_unmatched_mem (m : Dict V) : ∀ (nl : Dict (List V))
    (st : LayerSt) (v : V),
    v ∈ (mergeLayer m st nl).unmatched ↔
      v ∈ st.unmatched ∨ (v ∈ dkeys nl ∧ dget? m v = none) := by
  intro nl
  induction nl with
  | nil => intro st v; simp [mergeLayer]
  | cons q nl ih =>
    obtain ⟨v0, L0⟩ := q
    intro st v
    rw [mergeLayer_cons, ih]
    rcases hm0 : dget? m v0 with _ | u0
    · rw [mergeEntry_unmatched st L0 hm0]
      simp only [dkeys_cons, List.mem_cons, List.mem_append,
        List.mem_singleton]
      constructor
      · rintro ((h | hv0) | ⟨hv, hmv2⟩)
        · exact Or.inl h
        · rcases hv0 with rfl | h0
          · exact Or.inr ⟨Or.inl rfl, hm0⟩
          · simp at h0
        · exact Or.inr ⟨Or.inr hv, hmv2⟩
      · rintro (h | ⟨rfl | hv, hmv2⟩)
        · exact Or.inl (Or.inl h)
        · exact Or.inl (Or.inr (Or.inl rfl))
        · exact Or.inr ⟨hv, hmv2⟩
    · rw [mergeEntry_matched st L0 hm0]
      simp only [dkeys_cons, List.mem_cons]
      constructor
      · rintro (h | ⟨hv, hmv2⟩)
        · exact Or.inl h
        · exact Or.inr ⟨Or.inr hv, hmv2⟩
      · rintro (h | ⟨rfl | hv, hmv2⟩)
        · exact Or.inl h
        · rw [hm0] at hmv2; exact absurd hmv2 (by simp)
        · exact Or.inr ⟨hv, hmv2⟩

theorem mergeLayer_preds_nodup (m : Dict V) : ∀ (nl : Dict (List V))
    (st : LayerSt), (dkeys st.preds).Nodup →
    (dkeys (mergeLayer m st nl).preds).Nodup := by
  intro nl
  induction nl with
  | nil => intro st h; exact h
  | cons q nl ih =>
    obtain ⟨v0, L0⟩ := q
    intro st h
    rw [mergeLayer_cons]
    refine ih _ ?_
    rcases hm0 : dget? m v0 with _ | u0
    · rw [mergeEntry_unmatched st L0 hm0]
      exact nodup_dkeys_dset h
    · rw [mergeEntry_matched st L0 hm0]
      exact nodup_dkeys_dset h

theorem mergeLayer_pred_nodup (m : Dict V) : ∀ (nl : Dict (List V))
    (st : LayerSt), (dkeys st.pred).Nodup →
    (dkeys (mergeLayer m st nl).pred).Nodup := by
  intro nl
  induction nl with
  | nil => intro st h; exact h
  | cons q nl ih =>
    obtain ⟨v0, L0⟩ := q
    intro st h
    rw [mergeLayer_cons]
    refine ih _ ?_
    rcases hm0 : dget? m v0 with _ | u0
    · rw [mergeEntry_unmatched st L0 hm0]
      exact h
    · rw [mergeEntry_matched st L0 hm0]
      exact nodup_dkeys_dset h

theorem mergeLayer_unmatched_nodup (m : Dict V) : ∀ (nl : Dict (List V))
    (st : LayerSt), (dkeys nl).Nodup → st.unmatched.Nodup →
    (∀ k ∈ dkeys nl, k ∉ st.unmatched) →
    (mergeLayer m st nl).unmatched.Nodup := by
  intro nl
  induction nl with
  | nil => intro st _ h _; exact h
  | cons q nl ih =>
    obtain ⟨v0, L0⟩ := q
    intro st hnd h hks
    simp only [dkeys_cons, List.nodup_cons] at hnd
    rw [mergeLayer_cons]
    rcases hm0 : dget? m v0 with _ | u0
    · rw [mergeEntry_unmatched st L0 hm0]
      refine ih _ hnd.2 ?_ ?_
      · simp only [List.nodup_append, List.nodup_cons, List.nodup_nil]
        refine ⟨h, by simp, ?_⟩
        intro a ha hb
        simp only [List.mem_singleton] at hb
        exact hks v0 (List.mem_cons_self _ _) (hb ▸ ha)
      · intro k hk
        simp only [List.mem_append, List.mem_singleton]
        push_neg
        exact ⟨hks k (List.mem_cons_of_mem _ hk), fun he => hnd.1 (he ▸ hk)⟩
    · rw [mergeEntry_matched st L0 hm0]
      exact ih _ hnd.2 h (fun k hk => hks k (List.mem_cons_of_mem _ hk))

theorem mergeLayer_pred_keys_grow (m : Dict V) : ∀ (nl : Dict (List V))
    (st : LayerSt) (x : V), x ∈ dkeys st.pred →
    x ∈ dkeys (mergeLayer m st nl).pred := by
  intro nl
  induction nl with
  | nil => intro st x h; exact h
  | cons q nl ih =>
    obtain ⟨v0, L0⟩ := q
    intro st x h
    rw [mergeLayer_cons]
    refine ih _ x ?_
    rcases hm0 : dget? m v0 with _ | u0
    · rw [mergeEntry_unmatched st L0 hm0]
      exact h
    · rw [mergeEntry_matched st L0 hm0]
      exact mem_dkeys_dset.mpr (Or.inl h)

theorem mergeLayer_preds_length (m : Dict V) : ∀ (nl : Dict (List V))
    (st : LayerSt), (dkeys nl).Nodup →
    (∀ k ∈ dkeys nl, k ∉ dkeys st.preds) →
    (mergeLayer m st nl).preds.length = st.preds.length + nl.length := by
  intro nl
  induction nl with
  | nil => intro st _ _; simp [mergeLayer]
  | cons q nl ih =>
    obtain ⟨v0, L0⟩ := q
    intro st hnd hfresh
    simp only [dkeys_cons, List.nodup_cons] at hnd
    rw [mergeLayer_cons]
    have hpreds : (mergeEntry m st (v0, L0)).preds = dset st.preds v0 L0 := by
      rcases hm0 : dget? m v0 with _ | u0
      · rw [mergeEntry_unmatched st L0 hm0]
      · rw [mergeEntry_matched st L0 hm0]
    have hfresh0 : v0 ∉ dkeys st.preds :=
      hfresh v0 (List.mem_cons_self _ _)
    have hlen : (mergeEntry m st (v0, L0)).preds.length =
        st.preds.length + 1 := by
      rw [hpreds, length_dset_of_not_mem _ hfresh0]
    rw [ih _ hnd.2 ?_, hlen]
    · simp only [List.length_cons]
      omega
    · intro k hk
      rw [hpreds]
      intro hmem
      rcases mem_dkeys_dset.mp hmem with hmem | rfl
      · exact hfresh k (List.mem_cons_of_mem _ (by
          obtain ⟨p, hp, hp1⟩ := List.mem_map.mp hk
          exact hp1 ▸ List.mem_map.mpr ⟨p, hp, rfl⟩)) hmem
      · exact hnd.1 hk

theorem mergeLayer_unm_of_base (m : Dict V) (nl : Dict (List V))
    (st : LayerSt) {v : V} (h : v ∈ st.unmatched) :
    v ∈ (mergeLayer m st nl).unmatched :=
  (mergeLayer_unmatched_mem m nl st v).mpr (Or.inl h)

/-- The full invariant of the BFS layering loop: `rr`/`gr` are the
recipient/giver BFS layer numbers, `i` the current depth. -/
structure BLInv (g : Graph) (m : Dict V) (st : LayerSt) (i : Nat)
    (rr gr : V → Nat) : Prop where
  predsNodup : (dkeys st.preds).Nodup
  predNodup : (dkeys st.pred).Nodup
  predsFacts : ∀ p ∈ st.preds, p.2 ≠ [] ∧ 1 ≤ rr p.1 ∧ rr p.1 ≤ i ∧
    ∀ u ∈ p.2, gr u + 1 = rr p.1 ∧ p.1 ∈ graphAt g u ∧
      ∃ po, dget? st.pred u = some po ∧
        (po = none ∨
          ∃ pv, po = some pv ∧ pv ∈ dkeys st.preds ∧ rr pv = gr u)
  layerFacts : ∀ u ∈ st.layer, u ∈ dkeys g ∧ gr u = i ∧
    ∃ po, dget? st.pred u = some po ∧
      (po = none ∨ ∃ pv, po = some pv ∧ pv ∈ dkeys st.preds ∧ rr pv = i)
  predNone : ∀ p ∈ st.pred, p.2 = none → p.1 ∉ dvalues m
  predSome : ∀ p ∈ st.pred, ∀ pv, p.2 = some pv →
    dget? m pv = some p.1 ∧ pv ∈ dkeys st.preds
  predKeysG : ∀ u ∈ dkeys st.pred, u ∈ dkeys g
  expanded : ∀ u ∈ dkeys st.pred, u ∈ st.layer ∨
    ∀ v ∈ graphAt g u, v ∈ dkeys st.preds
  predsMatchedOrUnm : ∀ p ∈ st.preds, p.1 ∈ dkeys m ∨ p.1 ∈ st.unmatched
  predsPartner : ∀ p ∈ st.preds, ∀ u, dget? m p.1 = some u →
    u ∈ dkeys st.pred
  freeInPred : ∀ u ∈ dkeys g, u ∉ dvalues m → u ∈ dkeys st.pred
  unmFacts : ∀ v ∈ st.unmatched, v ∈ dkeys st.preds ∧ v ∉ dkeys m
  predsRec : ∀ x ∈ dkeys st.preds, x ∈ recipients g
  rankBound : i ≤ st.preds.length
  unmNodup : st.unmatched.Nodup

theorem preds_length_le_recipients {g : Graph} {m : Dict V} {st : LayerSt}
    {i : Nat} {rr gr : V → Nat} (h : BLInv g m st i rr gr) :
    st.preds.length ≤ (recipients g).length := by
  rw [← length_dkeys]
  exact length_le_of_nodup_subset h.predsNodup h.predsRec

theorem buildLayers_zero (g : Graph) (m : Dict V) (st : LayerSt) :
    buildLayers g m 0 st = none := rfl

theorem buildLayers_succ (g : Graph) (m : Dict V) (fuel : Nat)
    (st : LayerSt) :
    buildLayers g m (fuel + 1) st =
      if st.layer = [] ∨ st.unmatched ≠ [] then some st
      else
        buildLayers g m fuel
          (mergeLayer m { st with layer := [] }
            (expandLayer g st.preds st.layer)) := rfl

/-- One iteration of the layering loop preserves the invariant: the new
recipients get depth `i+1`, their matched givers become the next layer. -/
theorem blinv_step (g : Graph) (m : Dict V)
    (hmv : (dvalues m).Nodup)
    (hedges : ∀ p ∈ m, p.1 ∈ graphAt g p.2)
    (st : LayerSt) (i : Nat) (rr gr : V → Nat)
    (hinv : BLInv g m st i rr gr) :
    (expandLayer g st.preds st.layer = [] →
      BLInv g m (mergeLayer m { st with layer := [] }
        (expandLayer g st.preds st.layer)) i rr gr) ∧
    (expandLayer g st.preds st.layer ≠ [] →
      ∃ rr2 gr2, BLInv g m (mergeLayer m { st with layer := [] }
        (expandLayer g st.preds st.layer)) (i + 1) rr2 gr2) := by
  obtain ⟨⟨nlNodup, nlNonnil, nlFreshE, nlList⟩, nlCover⟩ :=
    expandLayer_spec g st.preds st.layer
  have nlK : ∀ k ∈ dkeys (expandLayer g st.preds st.layer),
      k ∉ dkeys st.preds := by
    intro k hk
    obtain ⟨p, hp, hp1⟩ := List.mem_map.mp hk
    exact hp1 ▸ nlFreshE p hp
  constructor
  · -- empty new layer: nothing changes except `layer := []`
    intro hnil
    rw [hnil]
    have hmerge : mergeLayer m { st with layer := [] } ([] : Dict (List V)) =
        { st with layer := [] } := rfl
    rw [hmerge]
    have hcover : ∀ u ∈ dkeys st.pred, ∀ v ∈ graphAt g u,
        v ∈ dkeys st.preds := by
      intro u hu v hv
      rcases hinv.expanded u hu with hL | hC
      · rcases nlCover u hL v hv with h | h
        · exact h
        · rw [hnil] at h; simp at h
      · exact hC v hv
    exact {
      predsNodup := hinv.predsNodup
      predNodup := hinv.predNodup
      predsFacts := hinv.predsFacts
      layerFacts := by intro u hu; simp at hu
      predNone := hinv.predNone
      predSome := hinv.predSome
      predKeysG := hinv.predKeysG
      expanded := fun u hu => Or.inr (hcover u hu)
      predsMatchedOrUnm := hinv.predsMatchedOrUnm
      predsPartner := hinv.predsPartner
      freeInPred := hinv.freeInPred
      unmFacts := hinv.unmFacts
      predsRec := hinv.predsRec
      rankBound := hinv.rankBound
      unmNodup := hinv.unmNodup }
  · -- nonempty new layer: depth grows to `i+1`
    intro hne
    set nl := expandLayer g st.preds st.layer with hnl
    set st2 : LayerSt := { st with layer := [] } with hst2
    set stM := mergeLayer m st2 nl with hstM
    have hNGfresh : ∀ v0 u0, v0 ∈ dkeys nl → dget? m v0 = some u0 →
        u0 ∉ dkeys st.pred := by
      intro v0 u0 hv0 hm0 hu0
      obtain ⟨po, hpo⟩ := Option.isSome_iff_exists.mp
        (dget?_isSome_iff_mem_dkeys.mpr hu0)
      have hent := mem_of_dget? hpo
      rcases po with _ | pv
      · exact hinv.predNone (u0, none) hent rfl (dget?_mem_dvalues hm0)
      · obtain ⟨hm1, hpv⟩ := hinv.predSome (u0, some pv) hent pv rfl
        have h1 := mem_of_dget? hm0
        have h2 := mem_of_dget? hm1
        have := entry_eq_of_nodup_dvalues hmv h1 h2 rfl
        have : v0 = pv := congrArg Prod.fst this
        exact nlK v0 hv0 (this ▸ hpv)
    have havoidD : ∀ u ∈ dkeys st.pred, ∀ p ∈ nl, ∀ u2,
        dget? m p.1 = some u2 → u ≠ u2 := by
      intro u hu p hp u2 hm2 he
      subst he
      exact hNGfresh p.1 u (List.mem_map.mpr ⟨p, hp, rfl⟩) hm2 hu
    have G1 := fun x => mergeLayer_preds_get m nl st2 x nlNodup
    have G3 := mergeLayer_pred_unchanged m nl st2
    have G4 := mergeLayer_layer_mem m nl st2
    have G5 := mergeLayer_unmatched_mem m nl st2
    have G9 := mergeLayer_pred_keys_grow m nl st2
    have hG2 : ∀ v0 ∈ dkeys nl, ∀ u, dget? m v0 = some u →
        dget? stM.pred u = some (some v0) := by
      intro v0 hv0 u hu
      obtain ⟨p, hp, hp1⟩ := List.mem_map.mp hv0
      have := mergeLayer_pred_matched m hmv nl st2 nlNodup p hp u
        (by rw [hp1]; exact hu)
      rw [hp1] at this
      exact this
    have hPkeys : ∀ x, x ∈ dkeys stM.preds ↔
        x ∈ dkeys st.preds ∨ x ∈ dkeys nl := by
      intro x
      rw [← dget?_isSome_iff_mem_dkeys, G1 x]
      rcases hx : dget? nl x with _ | L
      · rw [show dget? st2.preds x = dget? st.preds x from rfl]
        rw [dget?_isSome_iff_mem_dkeys]
        have : x ∉ dkeys nl := dget?_eq_none_iff.mp hx
        simp [this]
      · simp [mem_dkeys_of_dget? hx]
    have hMpredsNodup : (dkeys stM.preds).Nodup :=
      mergeLayer_preds_nodup m nl st2 hinv.predsNodup
    have hMpredNodup : (dkeys stM.pred).Nodup :=
      mergeLayer_pred_nodup m nl st2 hinv.predNodup
    have hPentry : ∀ p ∈ stM.preds, p ∈ st.preds ∨ p ∈ nl := by
      intro p hp
      have := dget?_of_mem hMpredsNodup hp
      rw [G1 p.1] at this
      rcases hx : dget? nl p.1 with _ | L
      · rw [hx] at this
        exact Or.inl (mem_of_dget? this)
      · rw [hx] at this
        obtain rfl : L = p.2 := Option.some_inj.mp this
        exact Or.inr (mem_of_dget? hx)
    have hDentry : ∀ p ∈ stM.pred, p ∈ st.pred ∨
        (∃ v0, v0 ∈ dkeys nl ∧ dget? m v0 = some p.1 ∧
          p.2 = some v0) := by
      intro p hp
      have hlook := dget?_of_mem hMpredNodup hp
      by_cases hex : ∃ v0 ∈ dkeys nl, dget? m v0 = some p.1
      · obtain ⟨v0, hv0, hm0⟩ := hex
        have := hG2 v0 hv0 p.1 hm0
        rw [hlook] at this
        exact Or.inr ⟨v0, hv0, hm0, Option.some_inj.mp this⟩
      · push_neg at hex
        have := G3 p.1 (by
          intro q hq u2 hm2 he
          exact hex q.1 (List.mem_map.mpr ⟨q, hq, rfl⟩) (he ▸ hm2))
        rw [hlook] at this
        exact Or.inl (mem_of_dget? this.symm)
    have hDold : ∀ u ∈ dkeys st.pred, dget? stM.pred u = dget? st.pred u := by
      intro u hu
      exact G3 u (fun p hp u2 hm2 => havoidD u hu p hp u2 hm2)
    refine ⟨fun x => if x ∈ dkeys nl then i + 1 else rr x,
      fun u => if ∃ v0 ∈ dkeys nl, dget? m v0 = some u then i + 1
        else gr u, ?_⟩
    set rr2 : V → Nat := fun x => if x ∈ dkeys nl then i + 1 else rr x
      with hrr2
    set gr2 : V → Nat := fun u =>
      if ∃ v0 ∈ dkeys nl, dget? m v0 = some u then i + 1 else gr u
      with hgr2
    have hrrOld : ∀ x ∈ dkeys st.preds, rr2 x = rr x := by
      intro x hx
      rw [hrr2]
      simp only
      rw [if_neg (fun hmem => nlK x hmem hx)]
    have hrrNew : ∀ x ∈ dkeys nl, rr2 x = i + 1 := by
      intro x hx
      rw [hrr2]
      simp only
      rw [if_pos hx]
    have hgrOld : ∀ u ∈ dkeys st.pred, gr2 u = gr u := by
      intro u hu
      rw [hgr2]
      simp only
      rw [if_neg]
      rintro ⟨v0, hv0, hm0⟩
      exact hNGfresh v0 u hv0 hm0 hu
    exact {
      predsNodup := hMpredsNodup
      predNodup := hMpredNodup
      predsFacts := by
        intro p hp
        rcases hPentry p hp with hold | hnew
        · obtain ⟨f1, f2, f3, f4⟩ := hinv.predsFacts p hold
          have hkey : p.1 ∈ dkeys st.preds := List.mem_map.mpr ⟨p, hold, rfl⟩
          refine ⟨f1, by rw [hrrOld p.1 hkey]; exact f2,
            by rw [hrrOld p.1 hkey]; omega, ?_⟩
          intro u hu
          obtain ⟨e1, e2, po, e3, e4⟩ := f4 u hu
          have huD : u ∈ dkeys st.pred := mem_dkeys_of_dget? e3
          refine ⟨by rw [hgrOld u huD, hrrOld p.1 hkey]; exact e1, e2,
            po, by rw [hDold u huD]; exact e3, ?_⟩
          rcases e4 with rfl | ⟨pv, rfl, hpv1, hpv2⟩
          · exact Or.inl rfl
          · refine Or.inr ⟨pv, rfl, (hPkeys pv).mpr (Or.inl hpv1), ?_⟩
            rw [hrrOld pv hpv1, hgrOld u huD]
            exact hpv2
        · have hkey : p.1 ∈ dkeys nl := List.mem_map.mpr ⟨p, hnew, rfl⟩
          refine ⟨nlNonnil p hnew, by rw [hrrNew p.1 hkey]; omega,
            by rw [hrrNew p.1 hkey], ?_⟩
          intro u hu
          obtain ⟨hulayer, hedge⟩ := nlList p hnew u hu
          obtain ⟨huG, hgru, po, hpo1, hpo2⟩ := hinv.layerFacts u hulayer
          have huD : u ∈ dkeys st.pred := mem_dkeys_of_dget? hpo1
          refine ⟨by rw [hgrOld u huD, hrrNew p.1 hkey, hgru], hedge,
            po, by rw [hDold u huD]; exact hpo1, ?_⟩
          rcases hpo2 with rfl | ⟨pv, rfl, hpv1, hpv2⟩
          · exact Or.inl rfl
          · refine Or.inr ⟨pv, rfl, (hPkeys pv).mpr (Or.inl hpv1), ?_⟩
            rw [hrrOld pv hpv1, hgrOld u huD, hgru]
            exact hpv2
      layerFacts := by
        intro u hu
        have := (G4 u).mp hu
        rcases this with h0 | ⟨v0, hv0, hm0⟩
        · simp [hst2] at h0
        · have hent := mem_of_dget? hm0
          have huG : u ∈ dkeys g :=
            mem_dkeys_of_graphAt_ne (hedges (v0, u) hent)
          have hgval : gr2 u = i + 1 := by
            rw [hgr2]
            simp only
            rw [if_pos ⟨v0, hv0, hm0⟩]
          refine ⟨huG, hgval, some v0, hG2 v0 hv0 u hm0, ?_⟩
          exact Or.inr ⟨v0, rfl, (hPkeys v0).mpr (Or.inr hv0),
            hrrNew v0 hv0⟩
      predNone := by
        intro p hp hnone
        rcases hDentry p hp with hold | ⟨v0, _, _, hsome⟩
        · exact hinv.predNone p hold hnone
        · rw [hnone] at hsome; exact absurd hsome (by simp)
      predSome := by
        intro p hp pv hpv
        rcases hDentry p hp with hold | ⟨v0, hv0, hm0, hsome⟩
        · obtain ⟨h1, h2⟩ := hinv.predSome p hold pv hpv
          exact ⟨h1, (hPkeys pv).mpr (Or.inl h2)⟩
        · rw [hpv] at hsome
          obtain rfl := Option.some_inj.mp hsome
          exact ⟨hm0, (hPkeys pv).mpr (Or.inr hv0)⟩
      predKeysG := by
        intro u hu
        obtain ⟨po, hpo⟩ := Option.isSome_iff_exists.mp
          (dget?_isSome_iff_mem_dkeys.mpr hu)
        rcases hDentry (u, po) (mem_of_dget? hpo) with hold |
          ⟨v0, hv0, hm0, _⟩
        · exact hinv.predKeysG u (List.mem_map.mpr ⟨(u, po), hold, rfl⟩)
        · exact mem_dkeys_of_graphAt_ne (hedges (v0, u) (mem_of_dget? hm0))
      expanded := by
        intro u hu
        obtain ⟨po, hpo⟩ := Option.isSome_iff_exists.mp
          (dget?_isSome_iff_mem_dkeys.mpr hu)
        rcases hDentry (u, po) (mem_of_dget? hpo) with hold |
          ⟨v0, hv0, hm0, _⟩
        · have huD : u ∈ dkeys st.pred :=
            List.mem_map.mpr ⟨(u, po), hold, rfl⟩
          rcases hinv.expanded u huD with hlay | hcov
          · refine Or.inr ?_
            intro v hv
            rcases nlCover u hlay v hv with h | h
            · exact (hPkeys v).mpr (Or.inl h)
            · exact (hPkeys v).mpr (Or.inr h)
          · exact Or.inr (fun v hv => (hPkeys v).mpr (Or.inl (hcov v hv)))
        · exact Or.inl ((G4 u).mpr (Or.inr ⟨v0, hv0, hm0⟩))
      predsMatchedOrUnm := by
        intro p hp
        rcases hPentry p hp with hold | hnew
        · rcases hinv.predsMatchedOrUnm p hold with h | h
          · exact Or.inl h
          · exact Or.inr (mergeLayer_unm_of_base m nl st2 h)
        · rcases hm0 : dget? m p.1 with _ | u0
          · refine Or.inr ((G5 p.1).mpr (Or.inr
              ⟨List.mem_map.mpr ⟨p, hnew, rfl⟩, hm0⟩))
          · exact Or.inl (mem_dkeys_of_dget? hm0)
      predsPartner := by
        intro p hp u hu
        rcases hPentry p hp with hold | hnew
        · exact G9 u (hinv.predsPartner p hold u hu)
        · exact mem_dkeys_of_dget?
            (hG2 p.1 (List.mem_map.mpr ⟨p, hnew, rfl⟩) u hu)
      freeInPred := by
        intro u hu hval
        exact G9 u (hinv.freeInPred u hu hval)
      unmFacts := by
        intro v hv
        rcases (G5 v).mp hv with hold | ⟨hv0, hm0⟩
        · obtain ⟨h1, h2⟩ := hinv.unmFacts v hold
          exact ⟨(hPkeys v).mpr (Or.inl h1), h2⟩
        · refine ⟨(hPkeys v).mpr (Or.inr hv0), ?_⟩
          rw [← dget?_eq_none_iff]
          exact hm0
      predsRec := by
        intro x hx
        rcases (hPkeys x).mp hx with h | h
        · exact hinv.predsRec x h
        · obtain ⟨p, hp, hp1⟩ := List.mem_map.mp h
          obtain ⟨w, hw⟩ := List.exists_mem_of_ne_nil p.2 (nlNonnil p hp)
          exact hp1 ▸ mem_recipients (nlList p hp w hw).2
      rankBound := by
        have hlen := mergeLayer_preds_length m nl st2 nlNodup nlK
        have h1 : 1 ≤ nl.length := by
          rcases nl with _ | ⟨q, nl⟩
          · exact absurd rfl hne
          · simp
        have := hinv.rankBound
        rw [hstM, hlen]
        have : st2.preds.length = st.preds.length := rfl
        omega
      unmNodup := by
        refine mergeLayer_unmatched_nodup m nl st2 nlNodup hinv.unmNodup ?_
        intro k hk hmem
        exact nlK k hk (hinv.unmFacts k hmem).1 }

/-- The invariant holds at the start of every phase. -/
theorem blinv_init (g : Graph) (m : Dict V) (hgnd : (dkeys g).Nodup) :
    BLInv g m (layerInit g m) 0 (fun _ => 0) (fun _ => 0) := by
  have hchar := dget?_predInit g m
  have hmem : ∀ u, u ∈ dkeys (predInit g m) ↔
      u ∈ dkeys g ∧ u ∉ dvalues m := by
    intro u
    rw [← dget?_isSome_iff_mem_dkeys, hchar u]
    by_cases h : u ∈ dkeys g ∧ u ∉ dvalues m
    · simp [h]
    · simp [if_neg h, h]
  have hentry : ∀ p ∈ predInit g m, p.2 = (none : Option V) ∧
      p.1 ∈ dkeys g ∧ p.1 ∉ dvalues m := by
    intro p hp
    have h1 := dget?_of_mem (nodup_dkeys_predInit g m hgnd) hp
    rw [hchar p.1] at h1
    by_cases h : p.1 ∈ dkeys g ∧ p.1 ∉ dvalues m
    · rw [if_pos h] at h1
      exact ⟨(Option.some_inj.mp h1).symm, h⟩
    · rw [if_neg h] at h1
      exact absurd h1 (by simp)
  exact {
    predsNodup := List.nodup_nil
    predNodup := nodup_dkeys_predInit g m hgnd
    predsFacts := by intro p hp; simp [layerInit] at hp
    layerFacts := by
      intro u hu
      have hu2 : u ∈ dkeys (predInit g m) := hu
      obtain ⟨huG, huV⟩ := (hmem u).mp hu2
      refine ⟨huG, rfl, none, ?_, Or.inl rfl⟩
      show dget? (predInit g m) u = some none
      rw [hchar u, if_pos (⟨huG, huV⟩ : u ∈ dkeys g ∧ u ∉ dvalues m)]
    predNone := fun p hp _ => (hentry p hp).2.2
    predSome := by
      intro p hp pv hpv
      have := (hentry p hp).1
      rw [hpv] at this
      exact absurd this (by simp)
    predKeysG := fun u hu => ((hmem u).mp hu).1
    expanded := fun u hu => Or.inl hu
    predsMatchedOrUnm := by intro p hp; simp [layerInit] at hp
    predsPartner := by intro p hp; simp [layerInit] at hp
    freeInPred := fun u hu hv => (hmem u).mpr ⟨hu, hv⟩
    unmFacts := by intro v hv; simp [layerInit] at hv
    predsRec := by intro x hx; simp [layerInit] at hx
    rankBound := Nat.le_refl 0
    unmNodup := List.nodup_nil }

/-- The layering loop terminates with the stated fuel and returns a state
still satisfying the invariant, with the loop guard false. -/
theorem buildLayers_spec (g : Graph) (m : Dict V)
    (hmv : (dvalues m).Nodup)
    (hedges : ∀ p ∈ m, p.1 ∈ graphAt g p.2) :
    ∀ (fuel : Nat) (st : LayerSt) (i : Nat) (rr gr : V → Nat),
    BLInv g m st i rr gr →
    (recipients g).length + 2 ≤ fuel + st.preds.length →
    ∃ stF iF rrF grF, buildLayers g m fuel st = some stF ∧
      BLInv g m stF iF rrF grF ∧
      (stF.layer = [] ∨ stF.unmatched ≠ []) := by
  intro fuel
  induction fuel with
  | zero =>
    intro st i rr gr hinv hf
    have := preds_length_le_recipients hinv
    omega
  | succ fuel ih =>
    intro st i rr gr hinv hf
    by_cases hg : st.layer = [] ∨ st.unmatched ≠ []
    · refine ⟨st, i, rr, gr, ?_, hinv, hg⟩
      rw [buildLayers_succ, if_pos hg]
    · obtain ⟨hstep0, hstep1⟩ := blinv_step g m hmv hedges st i rr gr hinv
      rw [buildLayers_succ, if_neg hg]
      by_cases hnl : expandLayer g st.preds st.layer = []
      · have hinv2 := hstep0 hnl
        have hl : (mergeLayer m { st with layer := [] }
            (expandLayer g st.preds st.layer)).layer = [] := by
          rw [hnl]; rfl
        rcases fuel with _ | fuel2
        · exfalso
          have := preds_length_le_recipients hinv
          omega
        · refine ⟨mergeLayer m { st with layer := [] }
            (expandLayer g st.preds st.layer), i, rr, gr, ?_, hinv2,
            Or.inl hl⟩
          rw [buildLayers_succ, if_pos (Or.inl hl)]
      · obtain ⟨rr2, gr2, hinv2⟩ := hstep1 hnl
        obtain ⟨⟨nlNodup, _, nlFreshE, _⟩, _⟩ :=
          expandLayer_spec g st.preds st.layer
        have nlK : ∀ k ∈ dkeys (expandLayer g st.preds st.layer),
            k ∉ dkeys st.preds := by
          intro k hk
          obtain ⟨p, hp, hp1⟩ := List.mem_map.mp hk
          exact hp1 ▸ nlFreshE p hp
        have hlen := mergeLayer_preds_length m
          (expandLayer g st.preds st.layer) { st with layer := [] }
          nlNodup nlK
        have hnl1 : 1 ≤ (expandLayer g st.preds st.layer).length := by
          rcases hE : expandLayer g st.preds st.layer with _ | ⟨q, nl2⟩
          · exact absurd hE hnl
          · simp
        refine ih _ (i + 1) rr2 gr2 hinv2 ?_
        rw [hlen]
        have : ({ st with layer := ([] : List V)}).preds.length =
          st.preds.length := rfl
        omega

/-- In a freshly layered state, the very first `Recurse(v)` descends the
layers straight to a free giver and succeeds: each visited recipient's
head predecessor is intact, and its own predecessor sits one layer
lower. -/
theorem recurse_descent (rr gr : V → Nat) : ∀ (K : Nat) (st : St) (v : V)
    (f : Nat),
    (∀ p ∈ st.preds, 1 ≤ rr p.1 ∧ (rr p.1 ≤ K →
      p.2 ≠ [] ∧ ∀ u ∈ p.2, gr u + 1 = rr p.1 ∧
        ∃ po, dget? st.pred u = some po ∧
          (po = none ∨ ∃ pv, po = some pv ∧ pv ∈ dkeys st.preds ∧
            rr pv = gr u))) →
    v ∈ dkeys st.preds → rr v = K → K ≤ f →
    ∃ st2, recurse f st v = some (true, st2) := by
  intro K
  induction K with
  | zero =>
    intro st v f hcl hv hrv hf
    obtain ⟨L, hL⟩ := Option.isSome_iff_exists.mp
      (dget?_isSome_iff_mem_dkeys.mpr hv)
    have h1 := (hcl (v, L) (mem_of_dget? hL)).1
    simp only at h1
    omega
  | succ K ih =>
    intro st v f hcl hv hrv hf
    obtain ⟨L, hL⟩ := Option.isSome_iff_exists.mp
      (dget?_isSome_iff_mem_dkeys.mpr hv)
    obtain ⟨h1, h2⟩ := hcl (v, L) (mem_of_dget? hL)
    simp only at h1 h2
    obtain ⟨hLne, hfacts⟩ := h2 (by omega)
    rcases hLeq : L with _ | ⟨u, us⟩
    · exact absurd hLeq hLne
    · subst hLeq
      obtain ⟨hgru, po, hpo, hpofact⟩ := hfacts u (List.mem_cons_self _ _)
      rcases f with _ | f2
      · omega
      · rw [recurse_succ]
        simp only [hL]
        rw [recurseList_cons]
        have hpo1 : dget? ({ st with preds := derase st.preds v } : St).pred
            u = some po := hpo
        simp only [hpo1]
        rcases hpofact with rfl | ⟨pv, rfl, hpv1, hpv2⟩
        · exact ⟨_, rfl⟩
        · have hrrpv : rr pv = K := by omega
          have hKpos : 1 ≤ K := by
            obtain ⟨L2, hL2⟩ := Option.isSome_iff_exists.mp
              (dget?_isSome_iff_mem_dkeys.mpr hpv1)
            have := (hcl (pv, L2) (mem_of_dget? hL2)).1
            simp only at this
            omega
          set st3 : St :=
            ({ st with preds := derase st.preds v,
                       pred := derase st.pred u } : St) with hst3
          have hcl3 : ∀ p ∈ st3.preds, 1 ≤ rr p.1 ∧ (rr p.1 ≤ K →
              p.2 ≠ [] ∧ ∀ u2 ∈ p.2, gr u2 + 1 = rr p.1 ∧
                ∃ po2, dget? st3.pred u2 = some po2 ∧
                  (po2 = none ∨ ∃ pv2, po2 = some pv2 ∧
                    pv2 ∈ dkeys st3.preds ∧ rr pv2 = gr u2)) := by
            intro p hp
            obtain ⟨hpmem, hpne⟩ := mem_derase.mp hp
            obtain ⟨c1, c2⟩ := hcl p hpmem
            refine ⟨c1, fun hple => ?_⟩
            obtain ⟨c3, c4⟩ := c2 (by omega)
            refine ⟨c3, fun u2 hu2 => ?_⟩
            obtain ⟨d1, po2, d2, d3⟩ := c4 u2 hu2
            have hu2u : u2 ≠ u := by
              intro he
              subst he
              omega
            refine ⟨d1, po2, ?_, ?_⟩
            · show dget? (derase st.pred u) u2 = some po2
              rw [dget?_derase_ne _ _ _ hu2u]
              exact d2
            · rcases d3 with rfl | ⟨pv2, rfl, e1, e2⟩
              · exact Or.inl rfl
              · refine Or.inr ⟨pv2, rfl, ?_, e2⟩
                have hpv2v : pv2 ≠ v := by
                  intro he
                  subst he
                  omega
                exact mem_dkeys_derase.mpr ⟨e1, hpv2v⟩
          have hpvmem : pv ∈ dkeys st3.preds := by
            have hpvv : pv ≠ v := by
              intro he
              subst he
              omega
            exact mem_dkeys_derase.mpr ⟨hpv1, hpvv⟩
          obtain ⟨st4, hst4⟩ := ih st3 pv f2 hcl3 hpvmem (by omega)
            (by omega)
          show ∃ st2, (match recurse f2 st3 pv with
            | none => none
            | some (true, stX) =>
              some (true, { stX with matching := dset stX.matching v u })
            | some (false, stX) => recurseList f2 stX v us) =
              some (true, st2)
          rw [hst4]
          exact ⟨_, rfl⟩

/-- Invariant holding throughout the augmentation of one phase. -/
structure PhaseInv (g : Graph) (st : St) : Prop where
  mNodupK : (dkeys st.matching).Nodup
  mNodupV : (dvalues st.matching).Nodup
  mEdges : ∀ p ∈ st.matching, p.1 ∈ graphAt g p.2
  predNodup : (dkeys st.pred).Nodup
  predNone : ∀ p ∈ st.pred, p.2 = none → p.1 ∉ dvalues st.matching
  predSome : ∀ p ∈ st.pred, ∀ pv, p.2 = some pv →
    dget? st.matching pv = some p.1
  predsEdges : ∀ p ∈ st.preds, ∀ u ∈ p.2, p.1 ∈ graphAt g u

/-- "No `pred` entry targets `v`": the pointer to `v`'s current giver
has been consumed (or `v` was never matched). -/
def NPT (st : St) (v : V) : Prop := ∀ p ∈ st.pred, p.2 ≠ some v

/-- What a successful `Recurse(v)` did to the matching. -/
def SuccessFacts (st : St) (v : V) (st2 : St) : Prop :=
  (∃ u, dget? st2.matching v = some u) ∧
  (∀ w, dget? st.matching v = some w → w ∉ dvalues st2.matching) ∧
  (∀ x, x ≠ v → x ∉ dkeys st.preds →
    dget? st2.matching x = dget? st.matching x) ∧
  (∀ x, x ∈ dkeys st2.matching ↔ x ∈ dkeys st.matching ∨ x = v) ∧
  (st2.matching.length =
    if v ∈ dkeys st.matching then st.matching.length
    else st.matching.length + 1)

theorem phaseInv_erase_preds {g : Graph} {st : St} (hinv : PhaseInv g st)
    (v : V) : PhaseInv g { st with preds := derase st.preds v } :=
  { hinv with
    predsEdges := fun p hp => hinv.predsEdges p (mem_derase.mp hp).1 }

theorem phaseInv_erase_pred {g : Graph} {st : St} (hinv : PhaseInv g st)
    (u : V) : PhaseInv g { st with pred := derase st.pred u } :=
  { hinv with
    predNodup := nodup_dkeys_derase u hinv.predNodup
    predNone := fun p hp => hinv.predNone p (mem_derase.mp hp).1
    predSome := fun p hp => hinv.predSome p (mem_derase.mp hp).1 }

/-- Setting `matching[v] = u` for a fresh giver `u` (consumed from
`pred`) preserves the invariant, provided no `pred` entry targets `v`. -/
theorem phaseInv_set (g : Graph) (st0 : St) (v u : V)
    (hinv : PhaseInv g st0) (hufresh : u ∉ dvalues st0.matching)
    (hedge : v ∈ graphAt g u) (hnpt : NPT st0 v)
    (hupred : u ∉ dkeys st0.pred) :
    PhaseInv g { st0 with matching := dset st0.matching v u } where
  mNodupK := nodup_dkeys_dset hinv.mNodupK
  mNodupV := nodup_dvalues_dset hinv.mNodupV hufresh
  mEdges := by
    intro p hp
    rcases mem_dset_of_nodup hinv.mNodupK hp with rfl | ⟨hp1, _⟩
    · exact hedge
    · exact hinv.mEdges p hp1
  predNodup := hinv.predNodup
  predNone := by
    intro p hp hnone hmem
    rcases mem_dvalues_dset hmem with he | hmem2
    · exact hupred (he ▸ List.mem_map.mpr ⟨p, hp, rfl⟩)
    · exact hinv.predNone p hp hnone hmem2
  predSome := by
    intro p hp pv hpv
    have hne : pv ≠ v := by
      intro he
      exact hnpt p hp (by rw [hpv, he])
    rw [show dget? ({ st0 with matching := dset st0.matching v u } :
      St).matching pv = dget? (dset st0.matching v u) pv from rfl]
    rw [dget?_dset_ne _ _ _ _ hne]
    exact hinv.predSome p hp pv hpv
  predsEdges := hinv.predsEdges

theorem keys_sub_of_entry_sub {β : Type} {d1 d2 : Dict β}
    (h : ∀ p ∈ d1, p ∈ d2) : ∀ x ∈ dkeys d1, x ∈ dkeys d2 := by
  intro x hx
  obtain ⟨p, hp, hp1⟩ := List.mem_map.mp hx
  exact hp1 ▸ List.mem_map.mpr ⟨p, h p hp, rfl⟩

theorem successFacts_of_set (mm : Dict V) (v u : V)
    (hv : (dvalues mm).Nodup) (hufresh : u ∉ dvalues mm) :
    (dget? (dset mm v u) v = some u) ∧
    (∀ w, dget? mm v = some w → w ∉ dvalues (dset mm v u)) ∧
    (∀ x, x ≠ v → dget? (dset mm v u) x = dget? mm x) ∧
    (∀ x, x ∈ dkeys (dset mm v u) ↔ x ∈ dkeys mm ∨ x = v) ∧
    ((dset mm v u).length =
      if v ∈ dkeys mm then mm.length else mm.length + 1) := by
  refine ⟨dget?_dset_self _ _ _, ?_,
    fun x hx => dget?_dset_ne _ _ _ _ hx, fun x => mem_dkeys_dset, ?_⟩
  · intro w hw
    have hwne : w ≠ u := by
      intro he
      exact hufresh (he ▸ dget?_mem_dvalues hw)
    exact old_value_not_mem_dvalues_dset hv hw hwne
  · by_cases hvm : v ∈ dkeys mm
    · rw [if_pos hvm, length_dset_of_mem _ hvm]
    · rw [if_neg hvm, length_dset_of_not_mem _ hvm]

/-- The main preservation lemma for `Recurse`: the phase invariant is
maintained, `preds`/`pred` only shrink, a failed call leaves the
matching untouched, and a successful call on `v` rebinds exactly the
recipients along the augmenting path, freeing `v`'s old giver. -/
theorem recurse_spec (g : Graph) : ∀ f : Nat,
    (∀ (st : St) (v : V) (ok : Bool) (st2 : St),
      PhaseInv g st → NPT st v →
      recurse f st v = some (ok, st2) →
      PhaseInv g st2 ∧ (∀ p ∈ st2.pred, p ∈ st.pred) ∧
      (∀ p ∈ st2.preds, p ∈ st.preds) ∧
      (ok = false → st2.matching = st.matching) ∧
      (ok = true → v ∈ dkeys st.preds ∧ SuccessFacts st v st2)) ∧
    (∀ (st : St) (v : V) (l : List V) (ok : Bool) (st2 : St),
      PhaseInv g st → NPT st v → v ∉ dkeys st.preds →
      (∀ u ∈ l, v ∈ graphAt g u) →
      recurseList f st v l = some (ok, st2) →
      PhaseInv g st2 ∧ (∀ p ∈ st2.pred, p ∈ st.pred) ∧
      (∀ p ∈ st2.preds, p ∈ st.preds) ∧
      (ok = false → st2.matching = st.matching) ∧
      (ok = true → SuccessFacts st v st2)) := by
  have hlist : ∀ f : Nat,
      (∀ (st : St) (v : V) (ok : Bool) (st2 : St),
        PhaseInv g st → NPT st v →
        recurse f st v = some (ok, st2) →
        PhaseInv g st2 ∧ (∀ p ∈ st2.pred, p ∈ st.pred) ∧
        (∀ p ∈ st2.preds, p ∈ st.preds) ∧
        (ok = false → st2.matching = st.matching) ∧
        (ok = true → v ∈ dkeys st.preds ∧ SuccessFacts st v st2)) →
      ∀ (l : List V) (st : St) (v : V) (ok : Bool) (st2 : St),
        PhaseInv g st → NPT st v → v ∉ dkeys st.preds →
        (∀ u ∈ l, v ∈ graphAt g u) →
        recurseList f st v l = some (ok, st2) →
        PhaseInv g st2 ∧ (∀ p ∈ st2.pred, p ∈ st.pred) ∧
        (∀ p ∈ st2.preds, p ∈ st.preds) ∧
        (ok = false → st2.matching = st.matching) ∧
        (ok = true → SuccessFacts st v st2) := by
    intro f hrec l
    induction l with
    | nil =>
      intro st v ok st2 hinv hnpt hvp hedges h
      rw [recurseList_nil] at h
      obtain ⟨h1, h2⟩ := Prod.mk.injEq _ _ _ _ ▸ Option.some_inj.mp h
      subst h1
      subst h2
      exact ⟨hinv, fun p hp => hp, fun p hp => hp, fun _ => rfl,
        fun hc => nomatch hc⟩
    | cons u us ihl =>
      intro st v ok st2 hinv hnpt hvp hedges h
      rw [recurseList_cons] at h
      rcases hpu : dget? st.pred u with _ | pu
      · rw [hpu] at h
        exact ihl st v ok st2 hinv hnpt hvp
          (fun w hw => hedges w (List.mem_cons_of_mem _ hw)) h
      · rw [hpu] at h
        have hent : (u, pu) ∈ st.pred := mem_of_dget? hpu
        have hedgeu : v ∈ graphAt g u := hedges u (List.mem_cons_self _ _)
        rcases pu with _ | pv
        · -- free giver found: match v to u and stop
          simp only at h
          obtain ⟨h1, h2⟩ := Prod.mk.injEq _ _ _ _ ▸ Option.some_inj.mp h
          subst h1
          have hufresh : u ∉ dvalues st.matching :=
            hinv.predNone (u, none) hent rfl
          have hinv1 : PhaseInv g { st with pred := derase st.pred u } :=
            phaseInv_erase_pred hinv u
          have hnpt1 : NPT { st with pred := derase st.pred u } v :=
            fun p hp => hnpt p (mem_derase.mp hp).1
          have hupred1 : u ∉ dkeys
              ({ st with pred := derase st.pred u } : St).pred := by
            intro hmem
            exact absurd (mem_dkeys_derase.mp hmem).2 (by simp)
          have hset := phaseInv_set g
            { st with pred := derase st.pred u } v u hinv1 hufresh
            hedgeu hnpt1 hupred1
          have hsf := successFacts_of_set st.matching v u hinv.mNodupV
            hufresh
          rw [← h2]
          refine ⟨hset, fun p hp => (mem_derase.mp hp).1,
            fun p hp => hp, fun hc => absurd hc (by simp), fun _ => ?_⟩
          exact ⟨⟨u, hsf.1⟩, hsf.2.1, fun x hx _ => hsf.2.2.1 x hx,
            hsf.2.2.2.1, hsf.2.2.2.2⟩
        · -- matched giver: recurse on its current recipient pv
          simp only at h
          set st1 : St := { st with pred := derase st.pred u } with hst1
          have hinv1 : PhaseInv g st1 := phaseInv_erase_pred hinv u
          have hmpv : dget? st.matching pv = some u :=
            hinv.predSome (u, some pv) hent pv rfl
          have hpvK : pv ∈ dkeys st.matching := mem_dkeys_of_dget? hmpv
          have hnpt1pv : NPT st1 pv := by
            intro p hp hpe
            obtain ⟨hpmem, hpne⟩ := mem_derase.mp hp
            have := hinv.predSome p hpmem pv hpe
            rw [hmpv] at this
            exact hpne (Option.some_inj.mp this.symm)
          rcases hrec2 : recurse f st1 pv with _ | okst3
          · rw [hrec2] at h
            exact absurd h (by simp)
          · rw [hrec2] at h
            obtain ⟨ok2, st3⟩ := okst3
            obtain ⟨R1, R2, R3, R4, R5⟩ :=
              hrec st1 pv ok2 st3 hinv1 hnpt1pv hrec2
            rcases ok2 with _ | _
            · -- inner search failed: giver u is burnt, try the next
              have hm3 : st3.matching = st.matching := R4 rfl
              have hnpt3 : NPT st3 v :=
                fun p hp => hnpt p ((mem_derase.mp (R2 p hp)).1)
              have hvp3 : v ∉ dkeys st3.preds := by
                intro hmem
                exact hvp (keys_sub_of_entry_sub R3 v hmem)
              obtain ⟨L1, L2, L3, L4, L5⟩ := ihl st3 v ok st2 R1 hnpt3
                hvp3 (fun w hw => hedges w (List.mem_cons_of_mem _ hw)) h
              refine ⟨L1, fun p hp => (mem_derase.mp (R2 p (L2 p hp))).1,
                fun p hp => R3 p (L3 p hp), ?_, ?_⟩
              · intro hc
                rw [L4 hc, hm3]
              · intro hc
                obtain ⟨S1, S2, S3, S4, S5⟩ := L5 hc
                refine ⟨S1, ?_, ?_, ?_, ?_⟩
                · intro w hw
                  exact S2 w (by rw [hm3]; exact hw)
                · intro x hx hxp
                  rw [S3 x hx (fun hmem =>
                    hxp (keys_sub_of_entry_sub R3 x hmem)), hm3]
                · intro x
                  rw [S4 x, hm3]
                · rw [S5, hm3]
            · -- inner search succeeded: rebind v to u on the way out
              obtain ⟨hpv1, SF⟩ := R5 rfl
              obtain ⟨S1, S2, S3, S4, S5⟩ := SF
              have hpvP : pv ∈ dkeys st.preds := hpv1
              have hvpv : v ≠ pv := by
                intro he
                exact hvp (he ▸ hpvP)
              obtain ⟨h1, h2⟩ := Prod.mk.injEq _ _ _ _ ▸
                Option.some_inj.mp h
              subst h1
              have hm3v : dget? st3.matching v = dget? st.matching v := by
                rw [S3 v hvpv (by
                  intro hmem
                  exact hvp hmem)]
              have hufresh3 : u ∉ dvalues st3.matching :=
                S2 u hmpv
              have hnpt3 : NPT st3 v :=
                fun p hp => hnpt p ((mem_derase.mp (R2 p hp)).1)
              have hupred3 : u ∉ dkeys st3.pred := by
                intro hmem
                obtain ⟨q, hq, hq1⟩ := List.mem_map.mp hmem
                have := mem_derase.mp (R2 q hq)
                exact this.2 hq1
              have hset := phaseInv_set g st3 v u R1 hufresh3 hedgeu
                hnpt3 hupred3
              have hsf := successFacts_of_set st3.matching v u R1.mNodupV
                hufresh3
              rw [← h2]
              refine ⟨hset, fun p hp => (mem_derase.mp (R2 p hp)).1,
                fun p hp => R3 p hp, fun hc => absurd hc (by simp),
                fun _ => ?_⟩
              refine ⟨⟨u, hsf.1⟩, ?_, ?_, ?_, ?_⟩
              · intro w hw
                have hw3 : dget? st3.matching v = some w := by
                  rw [hm3v]; exact hw
                have hwu : w ≠ u := by
                  intro he
                  subst he
                  have e1 := mem_of_dget? hw
                  have e2 := mem_of_dget? hmpv
                  have := entry_eq_of_nodup_dvalues hinv.mNodupV e1 e2 rfl
                  exact hvpv (congrArg Prod.fst this)
                exact old_value_not_mem_dvalues_dset R1.mNodupV hw3 hwu
              · intro x hx hxp
                rw [hsf.2.2.1 x hx]
                rw [S3 x (fun he => hxp (he ▸ hpvP)) (fun hmem =>
                  hxp hmem)]
              · intro x
                rw [hsf.2.2.2.1 x, S4 x]
                constructor
                · rintro ((hx | rfl) | rfl)
                  · exact Or.inl hx
                  · exact Or.inl hpvK
                  · exact Or.inr rfl
                · rintro (hx | rfl)
                  · exact Or.inl (Or.inl hx)
                  · exact Or.inr rfl
              · rw [hsf.2.2.2.2, S5]
                rw [if_pos hpvK]
                by_cases hvm : v ∈ dkeys st.matching
                · rw [if_pos hvm, if_pos ((S4 v).mpr (Or.inl hvm))]
                · rw [if_neg hvm, if_neg (by
                    intro hmem
                    rcases (S4 v).mp hmem with hx | he
                    · exact hvm hx
                    · exact hvpv he)]
  intro f
  induction f with
  | zero =>
    constructor
    · intro st v ok st2 _ _ h
      rw [recurse_zero] at h
      exact absurd h (by simp)
    · intro st v l ok st2 hinv hnpt hvp hedges h
      exact hlist 0 (by
        intro st v ok st2 _ _ h
        rw [recurse_zero] at h
        exact absurd h (by simp)) l st v ok st2 hinv hnpt hvp hedges h
  | succ f ih =>
    have hr : ∀ (st : St) (v : V) (ok : Bool) (st2 : St),
        PhaseInv g st → NPT st v →
        recurse (f + 1) st v = some (ok, st2) →
        PhaseInv g st2 ∧ (∀ p ∈ st2.pred, p ∈ st.pred) ∧
        (∀ p ∈ st2.preds, p ∈ st.preds) ∧
        (ok = false → st2.matching = st.matching) ∧
        (ok = true → v ∈ dkeys st.preds ∧ SuccessFacts st v st2) := by
      intro st v ok st2 hinv hnpt h
      rw [recurse_succ] at h
      rcases hL : dget? st.preds v with _ | L
      · rw [hL] at h
        obtain ⟨h1, h2⟩ := Prod.mk.injEq _ _ _ _ ▸ Option.some_inj.mp h
        subst h1
        subst h2
        exact ⟨hinv, fun p hp => hp, fun p hp => hp, fun _ => rfl,
          fun hc => nomatch hc⟩
      · rw [hL] at h
        set stE : St := { st with preds := derase st.preds v } with hstE
        have hinvE : PhaseInv g stE := phaseInv_erase_preds hinv v
        have hnptE : NPT stE v := hnpt
        have hvpE : v ∉ dkeys stE.preds := by
          intro hmem
          exact absurd (mem_dkeys_derase.mp hmem).2 (by simp)
        have hedgesL : ∀ u ∈ L, v ∈ graphAt g u :=
          hinv.predsEdges (v, L) (mem_of_dget? hL)
        obtain ⟨L1, L2, L3, L4, L5⟩ := hlist f ih.1 L stE v ok st2
          hinvE hnptE hvpE hedgesL h
        refine ⟨L1, L2, fun p hp => (mem_derase.mp (L3 p hp)).1,
          L4, fun hc => ⟨mem_dkeys_of_dget? hL, ?_⟩⟩
        obtain ⟨S1, S2, S3, S4, S5⟩ := L5 hc
        exact ⟨S1, S2, fun x hx hxp => S3 x hx (fun hmem =>
          hxp (mem_dkeys_derase.mp hmem).1), S4, S5⟩
    exact ⟨hr, fun st v l ok st2 hinv hnpt hvp hedges h =>
      hlist (f + 1) hr l st v ok st2 hinv hnpt hvp hedges h⟩

theorem augmentAll_nil (fuel : Nat) (st : St) :
    augmentAll fuel st [] = some st := rfl

theorem augmentAll_cons (fuel : Nat) (st : St) (v : V) (vs : List V) :
    augmentAll fuel st (v :: vs) =
      match recurse fuel st v with
      | none => none
      | some (_, st2) => augmentAll fuel st2 vs := rfl

theorem augmentAll_isSome (fuel : Nat) : ∀ (l : List V) (st : St),
    st.preds.length < fuel → (augmentAll fuel st l).isSome = true := by
  intro l
  induction l with
  | nil => intro st _; rw [augmentAll_nil]; rfl
  | cons v vs ih =>
    intro st hf
    rw [augmentAll_cons]
    rcases hrec : recurse fuel st v with _ | okst2
    · have := (recurse_enough_fuel fuel).1 st v hf
      rw [hrec] at this
      simp at this
    · obtain ⟨ok, st2⟩ := okst2
      have hle : st2.preds.length ≤ st.preds.length :=
        ((recurse_structural fuel).1 st v (ok, st2) hrec).2.2
      exact ih st2 (by omega)

/-- NPT holds for any recipient not currently matched. -/
theorem npt_of_not_matched {g : Graph} {st : St} (hinv : PhaseInv g st)
    {v : V} (hv : v ∉ dkeys st.matching) : NPT st v := by
  intro p hp hpe
  exact hv (mem_dkeys_of_dget? (hinv.predSome p hp v hpe))

/-- Running the augmentation pass over any list of currently unmatched
recipients preserves the invariant and never shrinks the matching. -/
theorem augmentAll_spec (g : Graph) (fuel : Nat) : ∀ (l : List V)
    (st st2 : St),
    PhaseInv g st → (∀ v ∈ l, v ∉ dkeys st.matching) → l.Nodup →
    augmentAll fuel st l = some st2 →
    PhaseInv g st2 ∧ st.matching.length ≤ st2.matching.length ∧
    (∀ x ∈ dkeys st2.matching, x ∈ dkeys st.matching ∨ x ∈ l) := by
  intro l
  induction l with
  | nil =>
    intro st st2 hinv _ _ h
    rw [augmentAll_nil] at h
    obtain rfl := Option.some_inj.mp h
    exact ⟨hinv, Nat.le_refl _, fun x hx => Or.inl hx⟩
  | cons v vs ih =>
    intro st st2 hinv hfree hnd h
    simp only [List.nodup_cons] at hnd
    rw [augmentAll_cons] at h
    rcases hrec : recurse fuel st v with _ | okst3
    · rw [hrec] at h; exact absurd h (by simp)
    · rw [hrec] at h
      obtain ⟨ok, st3⟩ := okst3
      have hvfree : v ∉ dkeys st.matching :=
        hfree v (List.mem_cons_self _ _)
      obtain ⟨R1, _, _, R4, R5⟩ := (recurse_spec g fuel).1 st v ok st3
        hinv (npt_of_not_matched hinv hvfree) hrec
      rcases ok with _ | _
      · have hm3 : st3.matching = st.matching := R4 rfl
        obtain ⟨I1, I2, I3⟩ := ih st3 st2 R1
          (fun w hw => by rw [hm3]; exact hfree w (List.mem_cons_of_mem _ hw))
          hnd.2 h
        refine ⟨I1, by rw [hm3] at I2; exact I2, ?_⟩
        intro x hx
        rcases I3 x hx with hx2 | hx2
        · rw [hm3] at hx2; exact Or.inl hx2
        · exact Or.inr (List.mem_cons_of_mem _ hx2)
      · obtain ⟨_, S1, S2, S3, S4, S5⟩ := R5 rfl
        have hlen3 : st3.matching.length = st.matching.length + 1 := by
          rw [S5, if_neg hvfree]
        obtain ⟨I1, I2, I3⟩ := ih st3 st2 R1
          (fun w hw => by
            rw [S4 w]
            push_neg
            exact ⟨hfree w (List.mem_cons_of_mem _ hw),
              fun he => hnd.1 (he ▸ hw)⟩)
          hnd.2 h
        refine ⟨I1, by omega, ?_⟩
        intro x hx
        rcases I3 x hx with hx2 | hx2
        · rcases (S4 x).mp hx2 with hx3 | rfl
          · exact Or.inl hx3
          · exact Or.inr (List.mem_cons_self _ _)
        · exact Or.inr (List.mem_cons_of_mem _ hx2)

theorem matching_length_le (g : Graph) (hgnd : (dkeys g).Nodup)
    {m : Dict V} (hm : IsMatching g m) : m.length ≤ g.length := by
  obtain ⟨_, hv, he⟩ := hm
  have hsub : ∀ x ∈ dvalues m, x ∈ dkeys g := by
    intro x hx
    obtain ⟨p, hp, hp1⟩ := List.mem_map.mp hx
    exact hp1 ▸ mem_dkeys_of_graphAt_ne (he p hp)
  have := length_le_of_nodup_subset hv hsub
  rw [show (dvalues m).length = m.length from List.length_map m _,
    length_dkeys] at this
  exact this

/-- The König-style counting argument at the return point: the unreached
matched givers together with the reached recipients form a vertex cover
whose size the final matching attains, so no matching is larger. -/
theorem matching_maximal_at_return (g : Graph) (hgnd : (dkeys g).Nodup)
    (m : Dict V) (hm : IsMatching g m)
    (predF : Dict (Option V)) (predsF : Dict (List V))
    (Cov1 : ∀ u ∈ dkeys predF, ∀ v ∈ graphAt g u, v ∈ dkeys predsF)
    (Cov2 : ∀ v ∈ dkeys predsF, v ∈ dkeys m)
    (Cov3 : ∀ v ∈ dkeys predsF, ∀ u, dget? m v = some u → u ∈ dkeys predF)
    (Cov4 : ∀ u ∈ dkeys g, u ∉ dvalues m → u ∈ dkeys predF)
    (hndV : (dkeys predsF).Nodup) :
    ∀ m2, IsMatching g m2 → m2.length ≤ m.length := by
  intro m2 hm2
  classical
  set CU : List V :=
    (dkeys g).filter (fun u => decide (u ∉ dkeys predF)) with hCU
  set CV : List V := dkeys predsF with hCV
  have hCUnodup : CU.Nodup := hgnd.filter _
  have hCUmem : ∀ u, u ∈ CU ↔ u ∈ dkeys g ∧ u ∉ dkeys predF := by
    intro u
    rw [hCU, List.mem_filter]
    simp
  set tl : List (V ⊕ V) := CU.map Sum.inl ++ CV.map Sum.inr with htl
  have htlnodup : tl.Nodup := by
    rw [htl, List.nodup_append]
    refine ⟨hCUnodup.map (fun a b => Sum.inl.inj),
      hndV.map (fun a b => Sum.inr.inj), ?_⟩
    intro x hx hy
    obtain ⟨a, _, rfl⟩ := List.mem_map.mp hx
    obtain ⟨b, _, hb⟩ := List.mem_map.mp hy
    exact absurd hb (by simp)
  have htlcard : tl.toFinset.card = CU.length + CV.length := by
    rw [List.toFinset_card_of_nodup htlnodup, htl, List.length_append,
      List.length_map, List.length_map]
  -- Step 1: every matching injects into the cover
  have hstep1 : m2.length ≤ tl.toFinset.card := by
    have hm2nodup : m2.Nodup := nodup_entries_of_nodup_dkeys hm2.1
    have hscard : m2.toFinset.card = m2.length :=
      List.toFinset_card_of_nodup hm2nodup
    rw [← hscard]
    refine Finset.card_le_card_of_injOn
      (fun p => if p.2 ∈ dkeys predF then Sum.inr p.1 else Sum.inl p.2)
      ?_ ?_
    · intro p hp
      rw [List.mem_toFinset] at hp
      have hedge := hm2.2.2 p hp
      show (if p.2 ∈ dkeys predF then Sum.inr p.1 else Sum.inl p.2) ∈
        tl.toFinset
      by_cases hD : p.2 ∈ dkeys predF
      · rw [if_pos hD, List.mem_toFinset, htl, List.mem_append]
        exact Or.inr (List.mem_map.mpr ⟨p.1, Cov1 p.2 hD p.1 hedge, rfl⟩)
      · rw [if_neg hD, List.mem_toFinset, htl, List.mem_append]
        refine Or.inl (List.mem_map.mpr ⟨p.2, ?_, rfl⟩)
        exact (hCUmem p.2).mpr ⟨mem_dkeys_of_graphAt_ne hedge, hD⟩
    · intro p hp q hq hpq
      rw [Finset.mem_coe, List.mem_toFinset] at hp hq
      have hpq2 : (if p.2 ∈ dkeys predF then Sum.inr p.1 else Sum.inl p.2 :
          V ⊕ V) =
          (if q.2 ∈ dkeys predF then Sum.inr q.1 else Sum.inl q.2) := hpq
      clear hpq
      rename' hpq2 => hpq
      by_cases hDp : p.2 ∈ dkeys predF <;>
        by_cases hDq : q.2 ∈ dkeys predF
      · rw [if_pos hDp, if_pos hDq] at hpq
        exact entry_eq_of_nodup_dkeys hm2.1 hp hq (Sum.inr.inj hpq)
      · rw [if_pos hDp, if_neg hDq] at hpq
        exact absurd hpq (by simp)
      · rw [if_neg hDp, if_pos hDq] at hpq
        exact absurd hpq (by simp)
      · rw [if_neg hDp, if_neg hDq] at hpq
        exact entry_eq_of_nodup_dvalues hm2.2.1 hp hq (Sum.inl.inj hpq)
  -- Step 2: the cover injects into the final matching
  have hstep2 : tl.toFinset.card ≤ m.length := by
    have hmnodup : m.Nodup := nodup_entries_of_nodup_dkeys hm.1
    have hmcard : m.toFinset.card = m.length :=
      List.toFinset_card_of_nodup hmnodup
    rw [← hmcard]
    refine Finset.card_le_card_of_injOn
      (fun x => match x with
        | Sum.inl u => ((mkeyOf m u).getD "", u)
        | Sum.inr v => (v, (dget? m v).getD "")) ?_ ?_
    · intro x hx
      rw [List.mem_toFinset, htl, List.mem_append] at hx
      rcases x with u | v
      · have hu : u ∈ CU := by
          rcases hx with hx | hx
          · obtain ⟨a, ha, ha2⟩ := List.mem_map.mp hx
            exact (Sum.inl.inj ha2) ▸ ha
          · obtain ⟨a, _, ha2⟩ := List.mem_map.mp hx
            exact absurd ha2 (by simp)
        obtain ⟨huG, huD⟩ := (hCUmem u).mp hu
        have huval : u ∈ dvalues m := by
          by_contra hcon
          exact huD (Cov4 u huG hcon)
        obtain ⟨v1, hv1, hv2⟩ := mkeyOf_spec huval
        show ((mkeyOf m u).getD "", u) ∈ List.toFinset m
        rw [List.mem_toFinset]
        simpa [hv1] using hv2
      · have hv : v ∈ CV := by
          rcases hx with hx | hx
          · obtain ⟨a, _, ha2⟩ := List.mem_map.mp hx
            exact absurd ha2 (by simp)
          · obtain ⟨a, ha, ha2⟩ := List.mem_map.mp hx
            exact (Sum.inr.inj ha2) ▸ ha
        have hvK : v ∈ dkeys m := Cov2 v hv
        obtain ⟨u1, hu1⟩ := Option.isSome_iff_exists.mp
          (dget?_isSome_iff_mem_dkeys.mpr hvK)
        show (v, (dget? m v).getD "") ∈ List.toFinset m
        rw [List.mem_toFinset]
        simpa [hu1] using mem_of_dget? hu1
    · intro x hx y hy hxy
      rw [Finset.mem_coe, List.mem_toFinset, htl, List.mem_append] at hx hy
      have hmemCU : ∀ z : V ⊕ V, z ∈ CU.map Sum.inl ∨ z ∈ CV.map Sum.inr →
          ∀ u, z = Sum.inl u → u ∈ CU := by
        rintro z (hz | hz) u rfl
        · obtain ⟨a, ha, ha2⟩ := List.mem_map.mp hz
          exact (Sum.inl.inj ha2) ▸ ha
        · obtain ⟨a, _, ha2⟩ := List.mem_map.mp hz
          exact absurd ha2 (by simp)
      have hmemCV : ∀ z : V ⊕ V, z ∈ CU.map Sum.inl ∨ z ∈ CV.map Sum.inr →
          ∀ v, z = Sum.inr v → v ∈ CV := by
        rintro z (hz | hz) v rfl
        · obtain ⟨a, _, ha2⟩ := List.mem_map.mp hz
          exact absurd ha2 (by simp)
        · obtain ⟨a, ha, ha2⟩ := List.mem_map.mp hz
          exact (Sum.inr.inj ha2) ▸ ha
      have hcross : ∀ (u v2 : V), u ∈ CU → v2 ∈ CV →
          (match (Sum.inl u : V ⊕ V) with
            | Sum.inl u => ((mkeyOf m u).getD "", u)
            | Sum.inr v => (v, (dget? m v).getD "")) ≠
          (match (Sum.inr v2 : V ⊕ V) with
            | Sum.inl u => ((mkeyOf m u).getD "", u)
            | Sum.inr v => (v, (dget? m v).getD "")) := by
        intro u v2 hu hv2 he
        simp only at he
        obtain ⟨u1, hu1⟩ := Option.isSome_iff_exists.mp
          (dget?_isSome_iff_mem_dkeys.mpr (Cov2 v2 hv2))
        rw [hu1] at he
        have h2 : u = u1 := congrArg Prod.snd he
        subst h2
        have := Cov3 v2 hv2 u hu1
        exact ((hCUmem u).mp hu).2 this
      rcases x with u1 | v1 <;> rcases y with u2 | v2
      · have h2 : u1 = u2 := congrArg Prod.snd hxy
        rw [h2]
      · exact absurd hxy
          (hcross u1 v2 (hmemCU _ hx u1 rfl) (hmemCV _ hy v2 rfl))
      · exact absurd hxy.symm
          (hcross u2 v1 (hmemCU _ hy u2 rfl) (hmemCV _ hx v1 rfl))
      · have h2 : v1 = v2 := congrArg Prod.fst hxy
        rw [h2]
  omega

theorem phases_zero (g : Graph) (m : Dict V) : phases g 0 m = none := rfl

theorem phases_succ (g : Graph) (fuel : Nat) (m : Dict V) :
    phases g (fuel + 1) m =
      match buildLayers g m ((recipients g).length + 2) (layerInit g m) with
      | none => none
      | some st =>
        if st.unmatched = [] then
          some (m, dkeys st.pred, unlayeredOf g st.preds)
        else
          match augmentAll ((recipients g).length + 2)
              { matching := m, preds := st.preds, pred := st.pred }
              st.unmatched with
          | none => none
          | some st2 => phases g fuel st2.matching := rfl

/-- The phase invariant holds for the state assembled after layering. -/
theorem phaseInv_of_blinv (g : Graph) (m : Dict V) (hm : IsMatching g m)
    {st : LayerSt} {i : Nat} {rr gr : V → Nat}
    (hinv : BLInv g m st i rr gr) :
    PhaseInv g { matching := m, preds := st.preds, pred := st.pred } where
  mNodupK := hm.1
  mNodupV := hm.2.1
  mEdges := hm.2.2
  predNodup := hinv.predNodup
  predNone := hinv.predNone
  predSome := fun p hp pv hpv => (hinv.predSome p hp pv hpv).1
  predsEdges := fun p hp u hu => ((hinv.predsFacts p hp).2.2.2 u hu).2.1

/-- The phase loop: with enough fuel it returns a maximum matching. -/
theorem phases_spec (g : Graph) (hgnd : (dkeys g).Nodup) :
    ∀ (fuel : Nat) (m : Dict V), IsMatching g m →
    g.length + 2 ≤ fuel + m.length →
    ∃ mF A B, phases g fuel m = some (mF, A, B) ∧ IsMatching g mF ∧
      ∀ m2, IsMatching g m2 → m2.length ≤ mF.length := by
  intro fuel
  induction fuel with
  | zero =>
    intro m hm hf
    have := matching_length_le g hgnd hm
    omega
  | succ fuel ih =>
    intro m hm hf
    obtain ⟨stF, iF, rrF, grF, hbl, hinvF, hexit⟩ :=
      buildLayers_spec g m hm.2.1 hm.2.2 ((recipients g).length + 2)
        (layerInit g m) 0 (fun _ => 0) (fun _ => 0) (blinv_init g m hgnd)
        (by
          have h0 : (layerInit g m).preds.length = 0 := rfl
          omega)
    rw [phases_succ]
    simp only [hbl]
    by_cases hunm : stF.unmatched = []
    · rw [if_pos hunm]
      refine ⟨m, dkeys stF.pred, unlayeredOf g stF.preds, rfl, hm, ?_⟩
      have hlayer : stF.layer = [] := by
        rcases hexit with h | h
        · exact h
        · exact absurd hunm h
      apply matching_maximal_at_return g hgnd m hm stF.pred stF.preds
      · intro u hu v hv
        rcases hinvF.expanded u hu with hL | hAll
        · rw [hlayer] at hL
          exact absurd hL (by simp)
        · exact hAll v hv
      · intro v hv
        obtain ⟨p, hp, rfl⟩ := List.mem_map.mp hv
        rcases hinvF.predsMatchedOrUnm p hp with h | h
        · exact h
        · rw [hunm] at h
          exact absurd h (by simp)
      · intro v hv u hu
        obtain ⟨p, hp, rfl⟩ := List.mem_map.mp hv
        exact hinvF.predsPartner p hp u hu
      · exact hinvF.freeInPred
      · exact hinvF.predsNodup
    · rw [if_neg hunm]
      rcases hU : stF.unmatched with _ | ⟨v0, rest⟩
      · exact absurd hU hunm
      have hinv0 : PhaseInv g
          { matching := m, preds := stF.preds, pred := stF.pred } :=
        phaseInv_of_blinv g m hm hinvF
      have hv0 := hinvF.unmFacts v0 (by rw [hU]; exact List.mem_cons_self _ _)
      have hK : rrF v0 ≤ (recipients g).length + 2 := by
        obtain ⟨p, hp, hp1⟩ := List.mem_map.mp hv0.1
        have h1 := (hinvF.predsFacts p hp).2.2.1
        have h2 := hinvF.rankBound
        have h3 := preds_length_le_recipients hinvF
        rw [hp1] at h1
        omega
      obtain ⟨stA, hrecA⟩ := recurse_descent rrF grF (rrF v0)
        { matching := m, preds := stF.preds, pred := stF.pred } v0
        ((recipients g).length + 2)
        (fun p hp =>
          have hfc := hinvF.predsFacts p hp
          ⟨hfc.2.1, fun _ => ⟨hfc.1,
            fun u hu => ⟨(hfc.2.2.2 u hu).1, (hfc.2.2.2 u hu).2.2⟩⟩⟩)
        hv0.1 rfl hK
      obtain ⟨A1, _, _, _, A5⟩ :=
        (recurse_spec g ((recipients g).length + 2)).1
          { matching := m, preds := stF.preds, pred := stF.pred } v0 true stA
          hinv0 (npt_of_not_matched hinv0 hv0.2) hrecA
      obtain ⟨_, SF⟩ := A5 rfl
      have hlenA : stA.matching.length = m.length + 1 := by
        have hL5 := SF.2.2.2.2
        rw [hL5]
        exact if_neg hv0.2
      simp only [augmentAll_cons, hrecA]
      have hlt : stA.preds.length < (recipients g).length + 2 := by
        have h1 : stA.preds.length ≤ stF.preds.length :=
          ((recurse_structural ((recipients g).length + 2)).1
            { matching := m, preds := stF.preds, pred := stF.pred } v0
            (true, stA) hrecA).2.2
        have h2 := preds_length_le_recipients hinvF
        omega
      rcases hAA : augmentAll ((recipients g).length + 2) stA rest
        with _ | st2
      · have hS := augmentAll_isSome ((recipients g).length + 2) rest stA hlt
        rw [hAA] at hS
        exact absurd hS (by simp)
      · have hUnd : stF.unmatched.Nodup := hinvF.unmNodup
        rw [hU, List.nodup_cons] at hUnd
        obtain ⟨B1, B2, _⟩ := augmentAll_spec g ((recipients g).length + 2)
          rest stA st2 A1
          (fun w hw => by
            rw [SF.2.2.2.1 w]
            push_neg
            constructor
            · exact (hinvF.unmFacts w
                (by rw [hU]; exact List.mem_cons_of_mem _ hw)).2
            · intro he
              exact hUnd.1 (he ▸ hw))
          hUnd.2 hAA
        have hm2 : IsMatching g st2.matching :=
          ⟨B1.mNodupK, B1.mNodupV, B1.mEdges⟩
        obtain ⟨mF, A, B, hph, hMF, hmax⟩ := ih st2.matching hm2 (by omega)
        exact ⟨mF, A, B, by simp only [hAA]; exact hph, hMF, hmax⟩

/-- `BipartiteMatch` always returns, and the matching it returns is a
maximum-cardinality matching of the graph. -/
theorem bipartiteMatch_spec (g : Graph) (hgnd : (dkeys g).Nodup) :
    ∃ mF A B, bipartiteMatch g = some (mF, A, B) ∧ IsMatching g mF ∧
      ∀ m2, IsMatching g m2 → m2.length ≤ mF.length := by
  have hg := greedy_isMatching g hgnd
  exact phases_spec g hgnd (g.length + 2) (greedyMatching g) hg (by omega)

/-- All (recipient, giver) edges of the graph, as a flat list. -/
def edgeList (g : Graph) : List (V × V) :=
  (g.map (fun p => p.2.map (fun v => (v, p.1)))).flatten

/-- Brute-force enumeration of the maximum matching size: the largest
cardinality over all subsets of the edge set whose recipients and givers
are pairwise distinct (this follows the spec's wording, to be compared
with the engine's result). -/
def bruteForceMax (g : Graph) : Nat :=
  ((((edgeList g).sublists).filter
      (fun m => decide ((dkeys m).Nodup ∧ (dvalues m).Nodup))).map
    List.length).foldr max 0

theorem mem_edgeList {g : Graph} (hgnd : (dkeys g).Nodup) {v u : V} :
    (v, u) ∈ edgeList g ↔ v ∈ graphAt g u := by
  constructor
  · intro h
    obtain ⟨l, hl, hm⟩ := List.mem_flatten.mp h
    obtain ⟨p, hp, rfl⟩ := List.mem_map.mp hl
    obtain ⟨w, hw, hwe⟩ := List.mem_map.mp hm
    simp only [Prod.mk.injEq] at hwe
    obtain ⟨rfl, rfl⟩ := hwe
    rw [graphAt, dget?_of_mem hgnd hp]
    exact hw
  · intro h
    have hu : u ∈ dkeys g := mem_dkeys_of_graphAt_ne h
    obtain ⟨L, hL⟩ := Option.isSome_iff_exists.mp
      (dget?_isSome_iff_mem_dkeys.mpr hu)
    have hvL : v ∈ L := by
      rw [graphAt, hL] at h
      exact h
    refine List.mem_flatten.mpr ⟨L.map (fun w => (w, u)), ?_, ?_⟩
    · exact List.mem_map.mpr ⟨(u, L), mem_of_dget? hL, rfl⟩
    · exact List.mem_map.mpr ⟨v, hvL, rfl⟩

theorem foldr_max_le : ∀ (l : List Nat), ∀ x ∈ l, x ≤ l.foldr max 0 := by
  intro l
  induction l with
  | nil => intro x hx; exact absurd hx (by simp)
  | cons a l ih =>
    intro x hx
    rw [List.foldr_cons]
    rcases List.mem_cons.mp hx with rfl | hx
    · exact Nat.le_max_left _ _
    · exact Nat.le_trans (ih x hx) (Nat.le_max_right _ _)

theorem foldr_max_mem : ∀ l : List Nat,
    l.foldr max 0 = 0 ∨ l.foldr max 0 ∈ l := by
  intro l
  induction l with
  | nil => exact Or.inl rfl
  | cons a l ih =>
    rw [List.foldr_cons]
    rcases Nat.le_total a (l.foldr max 0) with h | h
    · rw [Nat.max_eq_right h]
      rcases ih with h2 | h2
      · exact Or.inl h2
      · exact Or.inr (List.mem_cons_of_mem _ h2)
    · rw [Nat.max_eq_left h]
      exact Or.inr (List.mem_cons_self _ _)

theorem le_bruteForceMax (g : Graph) (hgnd : (dkeys g).Nodup)
    {m : Dict V} (hm : IsMatching g m) : m.length ≤ bruteForceMax g := by
  obtain ⟨hk, hv, he⟩ := hm
  have hmnd : m.Nodup := nodup_entries_of_nodup_dkeys hk
  have hsub : m ⊆ edgeList g := by
    intro p hp
    have h2 : (p.1, p.2) ∈ edgeList g := (mem_edgeList hgnd).mpr (he p hp)
    simpa using h2
  obtain ⟨m2, hperm, hsl⟩ := List.subperm_of_subset hmnd hsub
  have hmem : m2 ∈ (edgeList g).sublists := List.mem_sublists.mpr hsl
  have hfilter : m2 ∈ ((edgeList g).sublists).filter
      (fun m => decide ((dkeys m).Nodup ∧ (dvalues m).Nodup)) := by
    rw [List.mem_filter]
    refine ⟨hmem, ?_⟩
    rw [decide_eq_true_eq]
    exact ⟨(List.Perm.nodup_iff (hperm.map (fun p : V × V => p.1))).mpr hk,
      (List.Perm.nodup_iff (hperm.map (fun p : V × V => p.2))).mpr hv⟩
  have hle := foldr_max_le _ m2.length
    (List.mem_map.mpr ⟨m2, hfilter, rfl⟩)
  rw [hperm.length_eq] at hle
  exact hle

theorem bruteForceMax_attained (g : Graph) (hgnd : (dkeys g).Nodup) :
    ∃ m, IsMatching g m ∧ m.length = bruteForceMax g := by
  have hbf : bruteForceMax g =
      ((((edgeList g).sublists).filter
          (fun m => decide ((dkeys m).Nodup ∧ (dvalues m).Nodup))).map
        List.length).foldr max 0 := rfl
  rcases foldr_max_mem ((((edgeList g).sublists).filter
      (fun m => decide ((dkeys m).Nodup ∧ (dvalues m).Nodup))).map
    List.length) with h | h
  · refine ⟨[], ⟨List.nodup_nil, List.nodup_nil, ?_⟩, ?_⟩
    · intro p hp
      exact absurd hp (by simp)
    · rw [hbf, h]
      rfl
  · obtain ⟨m2, hm2, hlen⟩ := List.mem_map.mp h
    rw [List.mem_filter] at hm2
    obtain ⟨hsl, hcond⟩ := hm2
    rw [decide_eq_true_eq] at hcond
    refine ⟨m2, ⟨hcond.1, hcond.2, ?_⟩, by rw [hbf]; exact hlen⟩
    intro p hp
    have hpe : p ∈ edgeList g :=
      (List.mem_sublists.mp hsl).subset hp
    have : (p.1, p.2) ∈ edgeList g := by simpa using hpe
    exact (mem_edgeList hgnd).mp this

/-- C1: for every candidate graph (a Python dict: distinct keys), the
engine returns, and the matching it returns has cardinality equal to the
true maximum matching size, as computed by brute-force enumeration over
all subsets of the edge set. -/
theorem claim_C1_maximum_cardinality (g : Graph)
    (hgnd : (dkeys g).Nodup) :
    ∃ mF A B, bipartiteMatch g = some (mF, A, B) ∧
      IsMatching g mF ∧ mF.length = bruteForceMax g := by
  obtain ⟨mF, A, B, h1, h2, h3⟩ := bipartiteMatch_spec g hgnd
  refine ⟨mF, A, B, h1, h2,
    Nat.le_antisymm (le_bruteForceMax g hgnd h2) ?_⟩
  obtain ⟨m, hm, hml⟩ := bruteForceMax_attained g hgnd
  rw [← hml]
  exact h3 m hm

theorem claim_C1_maximum_cardinality_witness :
    ∃ mF A B,
      bipartiteMatch [("A", ["B", "C"]), ("B", ["A"]), ("C", ["A"])] =
        some (mF, A, B) ∧
      IsMatching [("A", ["B", "C"]), ("B", ["A"]), ("C", ["A"])] mF ∧
      mF.length =
        bruteForceMax [("A", ["B", "C"]), ("B", ["A"]), ("C", ["A"])] :=
  claim_C1_maximum_cardinality
    [("A", ["B", "C"]), ("B", ["A"]), ("C", ["A"])] (by decide)

/-- C9: the matching returned by `BipartiteMatch` is a partial injective
map respecting the graph's edges: every recipient key `v` is mapped to a
giver `u` with `v` occurring in `graph[u]`, and no giver is the match of
two distinct recipients. -/
theorem claim_C9_partial_injective_map (g : Graph)
    (hgnd : (dkeys g).Nodup) :
    ∃ mF A B, bipartiteMatch g = some (mF, A, B) ∧
      (dkeys mF).Nodup ∧
      (∀ p ∈ mF, p.1 ∈ graphAt g p.2) ∧
      (∀ p ∈ mF, ∀ q ∈ mF, p.2 = q.2 → p.1 = q.1) := by
  obtain ⟨mF, A, B, h1, ⟨hk, hv, he⟩, _⟩ := bipartiteMatch_spec g hgnd
  exact ⟨mF, A, B, h1, hk, he, fun p hp q hq hpq =>
    congrArg Prod.fst (entry_eq_of_nodup_dvalues hv hp hq hpq)⟩

theorem claim_C9_partial_injective_map_witness :
    ∃ mF A B, bipartiteMatch [("A", ["B"]), ("B", ["A"])] =
        some (mF, A, B) ∧
      (dkeys mF).Nodup ∧
      (∀ p ∈ mF, p.1 ∈ graphAt [("A", ["B"]), ("B", ["A"])] p.2) ∧
      (∀ p ∈ mF, ∀ q ∈ mF, p.2 = q.2 → p.1 = q.1) :=
  claim_C9_partial_injective_map [("A", ["B"]), ("B", ["A"])] (by decide)

/-- C5: on every valid input graph the engine terminates normally with a
result (it never fails); the result is a best achievable matching, and
when full coverage is structurally impossible it has fewer entries than
the number of participants. -/
theorem claim_C5_always_terminates (g : Graph)
    (hgnd : (dkeys g).Nodup) :
    ∃ mF A B, bipartiteMatch g = some (mF, A, B) ∧
      (∀ m2, IsMatching g m2 → m2.length ≤ mF.length) ∧
      ((¬ ∃ m2, IsMatching g m2 ∧ m2.length = g.length) →
        mF.length < g.length) := by
  obtain ⟨mF, A, B, h1, h2, h3⟩ := bipartiteMatch_spec g hgnd
  refine ⟨mF, A, B, h1, h3, ?_⟩
  intro hno
  have hle := matching_length_le g hgnd h2
  rcases Nat.lt_or_ge mF.length g.length with h | h
  · exact h
  · exact absurd ⟨mF, h2, Nat.le_antisymm hle h⟩ hno

theorem claim_C5_always_terminates_witness :
    ∃ mF A B, bipartiteMatch [("A", ["C"]), ("B", ["C"])] =
        some (mF, A, B) ∧
      (∀ m2, IsMatching [("A", ["C"]), ("B", ["C"])] m2 →
        m2.length ≤ mF.length) ∧
      ((¬ ∃ m2, IsMatching [("A", ["C"]), ("B", ["C"])] m2 ∧
          m2.length = 2) → mF.length < 2) :=
  claim_C5_always_terminates [("A", ["C"]), ("B", ["C"])] (by decide)

/-- C4: for every exclusion pair (a,b) and every participant set and
shuffle order, the final matching of the full pipeline (Graph Builder
then Matching Engine) never maps a to b nor b to a. -/
theorem claim_C4_exclusions_respected (ps : List V) (c : List (V × V))
    (o : List V) (hnd : ps.Nodup) (a b : V) (hab : (a, b) ∈ c) :
    ∃ mF A B, bipartiteMatch (createBigraph ps c o) = some (mF, A, B) ∧
      (a, b) ∉ mF ∧ (b, a) ∉ mF := by
  have hgnd := nodup_dkeys_createBigraph ps c o
  obtain ⟨mF, A, B, h1, ⟨_, _, he⟩, _⟩ :=
    bipartiteMatch_spec (createBigraph ps c o) hgnd
  refine ⟨mF, A, B, h1, ?_, ?_⟩
  · intro hmem
    have h2 := he _ hmem
    rw [mem_graphAt_createBigraph hnd] at h2
    exact h2.2.2 (Or.inr (Or.inr hab))
  · intro hmem
    have h2 := he _ hmem
    rw [mem_graphAt_createBigraph hnd] at h2
    exact h2.2.2 (Or.inr (Or.inl hab))

theorem claim_C4_exclusions_respected_witness :
    ∃ mF A B,
      bipartiteMatch
        (createBigraph ["A", "B", "C"] [("A", "B")] ["C", "B", "A"]) =
        some (mF, A, B) ∧
      ("A", "B") ∉ mF ∧ ("B", "A") ∉ mF :=
  claim_C4_exclusions_respected ["A", "B", "C"] [("A", "B")]
    ["C", "B", "A"] (by decide) "A" "B" (by decide)

/-- C6: on every complete matching (a bijection over the participant
set) the validator succeeds and the reported cycle lengths sum to the
number of participants, with cycles of length 1 only at
self-assignments; and in the {A,B,C,D} no-exclusions scenario, for every
shuffle order the pipeline's matching covers all four participants and
the reported cycle lengths sum to 4 with none of length 1. -/
theorem claim_C6_cycle_decomposition :
    (∀ d : Dict V, IsPermDict d →
      ∃ cs, makeSureEverybodyHasGift d = some cs ∧ cs.sum = d.length ∧
        ((∀ p ∈ d, p.2 ≠ p.1) → ∀ x ∈ cs, 2 ≤ x)) ∧
    (∀ o : List V, List.Perm o ["A", "B", "C", "D"] →
      ∃ mF A B cs,
        bipartiteMatch (createBigraph ["A", "B", "C", "D"] [] o) =
          some (mF, A, B) ∧
        (∀ x ∈ ["A", "B", "C", "D"], x ∈ dkeys mF) ∧
        makeSureEverybodyHasGift mF = some cs ∧
        cs.sum = 4 ∧ ∀ x ∈ cs, 2 ≤ x) := by
  constructor
  · intro d hperm
    exact makeSure_spec d.length d (Nat.le_refl _) hperm
  · intro o ho
    set ps : List V := ["A", "B", "C", "D"] with hpsdef
    have hndps : ps.Nodup := by rw [hpsdef]; decide
    have hgnd := nodup_dkeys_createBigraph ps [] o
    obtain ⟨mF, A, B, h1, hM, hmax⟩ := bipartiteMatch_spec _ hgnd
    have hoMem : ∀ x : V, x ∈ ps → x ∈ o := fun x hx => ho.mem_iff.mpr hx
    have hedge : ∀ q p : V, q ∈ ps → p ∈ ps → q ≠ p →
        q ∈ graphAt (createBigraph ps [] o) p := by
      intro q p hq hp hne
      rw [mem_graphAt_createBigraph hndps]
      refine ⟨hp, hoMem q hq, ?_⟩
      rintro (h | h | h)
      · exact hne h.symm
      · exact absurd h (by simp)
      · exact absurd h (by simp)
    have hEx : IsMatching (createBigraph ps [] o)
        [("B", "A"), ("C", "B"), ("D", "C"), ("A", "D")] := by
      refine ⟨by decide, by decide, ?_⟩
      intro p hp
      simp only [List.mem_cons] at hp
      rcases hp with rfl | rfl | rfl | rfl | hp
      · exact hedge "B" "A" (by rw [hpsdef]; decide) (by rw [hpsdef]; decide)
          (by decide)
      · exact hedge "C" "B" (by rw [hpsdef]; decide) (by rw [hpsdef]; decide)
          (by decide)
      · exact hedge "D" "C" (by rw [hpsdef]; decide) (by rw [hpsdef]; decide)
          (by decide)
      · exact hedge "A" "D" (by rw [hpsdef]; decide) (by rw [hpsdef]; decide)
          (by decide)
      · exact absurd hp (by simp)
    have h4 : 4 ≤ mF.length := hmax _ hEx
    have hkeysub : ∀ x ∈ dkeys (createBigraph ps [] o), x ∈ ps := by
      intro x hx
      exact ((mem_dkeys_createBigraph hndps).mp hx).1
    have hglen : (createBigraph ps [] o).length ≤ 4 := by
      have h5 := length_le_of_nodup_subset hgnd hkeysub
      rw [length_dkeys] at h5
      exact h5
    have hle := matching_length_le _ hgnd hM
    have hlen4 : mF.length = 4 := by omega
    have hkeysPerm : List.Perm (dkeys mF) ps := by
      have hsub : dkeys mF ⊆ ps := by
        intro x hx
        obtain ⟨p, hp, rfl⟩ := List.mem_map.mp hx
        have h6 := hM.2.2 p hp
        rw [mem_graphAt_createBigraph hndps] at h6
        exact ho.subset h6.2.1
      obtain ⟨l2, hl2perm, hl2sl⟩ := List.subperm_of_subset hM.1 hsub
      have hl2len : l2.length = ps.length := by
        rw [hl2perm.length_eq, length_dkeys, hlen4, hpsdef]
        rfl
      have hl2eq : l2 = ps := hl2sl.eq_of_length hl2len
      rw [← hl2eq]
      exact hl2perm.symm
    have hPerm : IsPermDict mF := by
      refine ⟨hM.1, hM.2.1, ?_⟩
      intro p hp
      have he := hM.2.2 p hp
      exact hkeysPerm.symm.subset (hkeysub _ (mem_dkeys_of_graphAt_ne he))
    have hnofix : ∀ p ∈ mF, p.2 ≠ p.1 := by
      intro p hp he
      have h2 := hM.2.2 p hp
      rw [mem_graphAt_createBigraph hndps] at h2
      exact h2.2.2 (Or.inl he)
    obtain ⟨cs, hcs, hsum, hone⟩ :=
      makeSure_spec mF.length mF (Nat.le_refl _) hPerm
    refine ⟨mF, A, B, cs, h1, ?_, hcs, ?_, hone hnofix⟩
    · intro x hx
      exact hkeysPerm.symm.subset hx
    · rw [hsum, hlen4]

theorem claim_C6_cycle_decomposition_witness :
    ∃ mF A B cs,
      bipartiteMatch
        (createBigraph ["A", "B", "C", "D"] [] ["A", "B", "C", "D"]) =
        some (mF, A, B) ∧
      (∀ x ∈ ["A", "B", "C", "D"], x ∈ dkeys mF) ∧
      makeSureEverybodyHasGift mF = some cs ∧
      cs.sum = 4 ∧ ∀ x ∈ cs, 2 ≤ x :=
  claim_C6_cycle_decomposition.2 ["A", "B", "C", "D"] (List.Perm.refl _)

end SecretSanta
